import Mathlib

/-!
Verification of the distance-vector routing simulator
(`distance_vector_animated.py`).

The embedding models the algorithmic core of the script:

* `Nodo V` mirrors the Python class `Nodo V` (fields `nome`, `vicini`,
  `tabella_routing`); python dicts become association lists with
  dict semantics (`lookupL` for `d[k]`, `dictSet` for `d[k] = v`).
* Distances are `Distanza` (`fin w` for a finite value, `inf` for
  `float('inf')`); link costs are integers.
* `inizializza_tabella`, `invia_vettore`, `aggiorna_tabella` mirror the
  three methods; a failing dict lookup (Python `KeyError`) is modelled
  explicitly, carrying the table state at the moment the exception is
  raised (Python mutates in place, so modifications made before the
  raise survive).
* `round1` mirrors one iteration of the loop in `simula`
  (snapshot, per-sender delivery to each neighbour, change counting)
  and `simulaAux`/`simula` mirror the full loop with the
  convergence `break` and the `max_iter` cap.
-/

/-- A routing distance: a finite integer or `float('inf')`. -/
inductive Distanza where
  | fin (w : Int)
  | inf
deriving DecidableEq, Repr

/-- Python `costo + distanza`: adding a finite link cost to a distance. -/
def Distanza.addC (c : Int) : Distanza → Distanza
  | .fin w => .fin (c + w)
  | .inf => .inf

/-- Python `<` on distances (`inf < inf` is false, `x < inf` is true for finite x). -/
def Distanza.lt : Distanza → Distanza → Prop
  | .fin a, .fin b => a < b
  | .fin _, .inf => True
  | .inf, _ => False

instance (a b : Distanza) : Decidable (Distanza.lt a b) :=
  match a, b with
  | .fin x, .fin y => inferInstanceAs (Decidable (x < y))
  | .fin _, .inf => .isTrue trivial
  | .inf, .fin _ => .isFalse id
  | .inf, .inf => .isFalse id

/-- Python `<=` on distances (the complement of the reversed `<`). -/
def Distanza.le : Distanza → Distanza → Prop
  | _, .inf => True
  | .fin a, .fin b => a ≤ b
  | .inf, .fin _ => False

instance (a b : Distanza) : Decidable (Distanza.le a b) :=
  match a, b with
  | .fin x, .fin y => inferInstanceAs (Decidable (x ≤ y))
  | .fin _, .inf => .isTrue trivial
  | .inf, .fin _ => .isFalse id
  | .inf, .inf => .isTrue trivial

variable {V : Type} [DecidableEq V]

/-- Dict read `d[k]`: the value at the first matching key, if any. -/
def lookupL {α : Type} : List (V × α) → V → Option α
  | [], _ => none
  | p :: rest, k => if p.1 = k then some p.2 else lookupL rest k

/-- Dict write `d[k] = v`: replace the value if the key is present
(keeping its position), otherwise append the new pair. -/
def dictSet {α : Type} (l : List (V × α)) (k : V) (v : α) :
    List (V × α) :=
  if k ∈ l.map Prod.fst then l.map (fun p => if p.1 = k then (k, v) else p)
  else l ++ [(k, v)]

/-- A routing-table entry: `(next_hop, distanza)`; `next_hop` is `None` or a node name. -/
abbrev Entry (V : Type) := Option V × Distanza

/-- A routing table: dict from destination name to entry. -/
abbrev Table (V : Type) := List (V × Entry V)

/-- The Python class `Nodo V`: a name, the neighbour-cost dict `vicini`,
and the routing table `tabella_routing`. -/
structure Nodo (V : Type) where
  nome : V
  vicini : List (V × Int)
  tabella : Table V
deriving DecidableEq, Repr

/-- The entry `inizializza_tabella` stores for the destination `nodo`:
`(self, 0)` for the node itself, `(nodo, cost)` for a direct neighbour,
`(None, inf)` otherwise. -/
def initEntry (n : Nodo V) (nodo : V) : Entry V :=
  if nodo = n.nome then (some n.nome, Distanza.fin 0)
  else match lookupL n.vicini nodo with
    | some c => (some nodo, Distanza.fin c)
    | none => (none, Distanza.inf)

/-- `Nodo.inizializza_tabella`: rebuild the routing table from scratch,
assigning `initEntry` for every name in `tutti_i_nodi` in order. -/
def inizializza_tabella (n : Nodo V) (tutti : List V) : Nodo V :=
  { n with tabella := tutti.foldl (fun t x => dictSet t x (initEntry n x)) [] }

/-- `Nodo.invia_vettore`: the distance vector, i.e. the table with
next-hops dropped. -/
def invia_vettore (n : Nodo V) : List (V × Distanza) :=
  n.tabella.map (fun q => (q.1, q.2.2))

/-- Outcome of the update loop on a table: normal return with the
modified-flag, or a raised `KeyError` carrying the table state at
the moment of the raise. -/
inductive UpdResult (V : Type) where
  | ok (t : Table V) (modificato : Bool)
  | keyError (t : Table V)
deriving DecidableEq, Repr

/-- The table carried by an update outcome (on `keyError`, the table at
the moment of the raise). -/
def UpdResult.table {V : Type} : UpdResult V → Table V
  | .ok t _ => t
  | .keyError t => t

/-- The `for destinazione, distanza_mittente in vettore.items()` loop of
`Nodo.aggiorna_tabella`: relax each destination in order, raising
`KeyError` when a destination is missing from the table. -/
def aggLoop (costo : Int) (mittente : V) :
    Table V → List (V × Distanza) → Bool → UpdResult V
  | t, [], m => .ok t m
  | t, (dest, dm) :: rest, m =>
    match lookupL t dest with
    | none => .keyError t
    | some q =>
      if Distanza.lt (Distanza.addC costo dm) q.2 then
        aggLoop costo mittente (dictSet t dest (some mittente, Distanza.addC costo dm)) rest true
      else aggLoop costo mittente t rest m

/-- Outcome of `Nodo.aggiorna_tabella` on a node. -/
inductive NUpdResult (V : Type) where
  | ok (n : Nodo V) (modificato : Bool)
  | keyError (n : Nodo V)
deriving DecidableEq, Repr

/-- The node carried by a node-update outcome (on `keyError`, the node
state at the moment of the raise). -/
def NUpdResult.nodo {V : Type} : NUpdResult V → Nodo V
  | .ok n _ => n
  | .keyError n => n

/-- Whether a node-update outcome is a raised `KeyError`. -/
def NUpdResult.isKeyError {V : Type} : NUpdResult V → Bool
  | .ok _ _ => false
  | .keyError _ => true

/-- `Nodo.aggiorna_tabella(mittente, vettore)`: look up the cost to the
sender (`KeyError` if the sender is not a neighbour), then relax every
destination of the incoming vector in order. -/
def aggiorna_tabella (n : Nodo V) (mittente : V) (vettore : List (V × Distanza)) :
    NUpdResult V :=
  match lookupL n.vicini mittente with
  | none => .keyError n
  | some c =>
    match aggLoop c mittente n.tabella vettore false with
    | .ok t m => .ok { n with tabella := t } m
    | .keyError t => .keyError { n with tabella := t }

/-- The dict `nodi` of the simulation: names mapped to nodes. -/
abbrev Net (V : Type) := List (V × Nodo V)

/-- Replace the node stored under key `k` (mutation of `nodi[k]`). -/
def netSet (net : Net V) (k : V) (v : Nodo V) : Net V :=
  net.map (fun p => if p.1 = k then (k, v) else p)

/-- Outcome of one round (or of a whole run): the final `nodi` dict and
the update count, or an uncaught `KeyError` carrying the dict state at
the moment of the raise. -/
inductive RoundRes (V : Type) where
  | ok (net : Net V) (agg : Nat)
  | err (net : Net V)
deriving DecidableEq, Repr

/-- One delivery `nodi[vicino].aggiorna_tabella(nome, vettore)` of the
round loop in `simula`. -/
def deliver (net : Net V) (nome : V) (vettore : List (V × Distanza))
    (vicino : V) : RoundRes V :=
  match lookupL net vicino with
  | none => .err net
  | some nodo =>
    match aggiorna_tabella nodo nome vettore with
    | .ok n' m => .ok (netSet net vicino n') (if m then 1 else 0)
    | .keyError n' => .err (netSet net vicino n')

/-- The `for vicino in nodo.vicini` loop of `simula`: deliver one
sender's vector to each of its neighbours, accumulating the count. -/
def deliverAll (nome : V) (vettore : List (V × Distanza)) :
    Net V → List V → Nat → RoundRes V
  | net, [], agg => .ok net agg
  | net, v :: vs, agg =>
    match deliver net nome vettore v with
    | .err e => .err e
    | .ok net' m => deliverAll nome vettore net' vs (agg + m)

/-- The `for nome, nodo in snapshot.items()` loop of `simula`: every
sender of the snapshot exports its vector and delivers it to its
neighbours, mutating the live dict. -/
def senders : List (V × Nodo V) → Net V → Nat → RoundRes V
  | [], net, agg => .ok net agg
  | (nome, nodo) :: rest, net, agg =>
    match deliverAll nome (invia_vettore nodo) net (nodo.vicini.map Prod.fst) agg with
    | .err e => .err e
    | .ok net' agg' => senders rest net' agg'

/-- One round of `simula`: snapshot the dict (`copy.deepcopy`), then run
every delivery against the live dict, counting the updates. -/
def round1 (net : Net V) : RoundRes V :=
  senders net net 0

/-- Outcome of the round loop of `simula`: the final dict together with
the per-round update counts of the executed rounds, or an uncaught
`KeyError`. -/
inductive SimRes (V : Type) where
  | ok (net : Net V) (counts : List Nat)
  | err (net : Net V)
deriving DecidableEq, Repr

/-- The `for iterazione in range(max_iter)` loop of `simula`: run rounds,
breaking as soon as a round produces `aggiornamenti == 0`. -/
def simulaAux (net : Net V) : Nat → SimRes V
  | 0 => .ok net []
  | k + 1 =>
    match round1 net with
    | .err e => .err e
    | .ok net' agg =>
      if agg = 0 then .ok net' [agg]
      else
        match simulaAux net' k with
        | .err e => .err e
        | .ok net'' counts => .ok net'' (agg :: counts)

/-- `simula(nodi, G, pos, max_iter)`: initialize every table from the
dict's keys, then run the round loop.  The per-round counts are kept as
an observer of the executed rounds (in Python they are only printed). -/
def simula (net : Net V) (maxIter : Nat) : SimRes V :=
  let tutti := net.map Prod.fst
  simulaAux (net.map (fun p => (p.1, inizializza_tabella p.2 tutti))) maxIter

/-- The table state every node starts round 1 with. -/
def initNet (net : Net V) : Net V :=
  net.map (fun p => (p.1, inizializza_tabella p.2 (net.map Prod.fst)))

/-- What the Python caller of `simula` observes: the mutated `nodi`
dict; the function itself returns `None`, so the per-round counts and
the convergence/cap distinction never reach the caller. -/
def simulaRet (net : Net V) (maxIter : Nat) : Option (Net V) :=
  match simula net maxIter with
  | .ok n _ => some n
  | .err _ => none

/-- The dict carried by a round outcome (on an uncaught `KeyError`, the
dict state at the moment of the raise). -/
def RoundRes.net {V : Type} : RoundRes V → Net V
  | .ok n _ => n
  | .err n => n

/-- The per-round counts carried by a run outcome (empty on an uncaught
`KeyError`). -/
def SimRes.counts {V : Type} : SimRes V → List Nat
  | .ok _ c => c
  | .err _ => []

/-- The distance component stored by node `k` for destination `dest`
(`inf` when the node or the entry is missing). -/
def entryDist (S : Net V) (k dest : V) : Distanza :=
  match lookupL S k with
  | some n =>
    match lookupL n.tabella dest with
    | some q => q.2
    | none => Distanza.inf
  | none => Distanza.inf

/-- The next-hop component stored by node `k` for destination `dest`. -/
def entryHop (S : Net V) (k dest : V) : Option V :=
  match lookupL S k with
  | some n =>
    match lookupL n.tabella dest with
    | some q => q.1
    | none => none
  | none => none

/-- The node labels occurring in the repository: the four nodes of
`main`, the isolated boundary node, and an identity unknown to every
table.  Python uses one-character strings; an opaque comparable label
type is all the algorithm relies on. -/
inductive Ident where
  | A | B | C | D | E | Z
deriving DecidableEq, Repr, Fintype

/-- The four nodes built in `main`, with the neighbour dicts assigned there. -/
def nodi4 : Net Ident :=
  [ (Ident.A, { nome := Ident.A, vicini := [(Ident.B, 1), (Ident.C, 4)], tabella := [] }),
    (Ident.B, { nome := Ident.B, vicini := [(Ident.A, 1), (Ident.C, 2), (Ident.D, 7)], tabella := [] }),
    (Ident.C, { nome := Ident.C, vicini := [(Ident.A, 4), (Ident.B, 2), (Ident.D, 1)], tabella := [] }),
    (Ident.D, { nome := Ident.D, vicini := [(Ident.B, 7), (Ident.C, 1)], tabella := [] }) ]

/-- The distance component of an entry of a table (a missing entry reads
as `inf`). -/
def tDist (t : Table V) (dest : V) : Distanza :=
  match lookupL t dest with
  | some q => q.2
  | none => Distanza.inf

/-- The dict state after one round, whatever the outcome (on an uncaught
`KeyError` this is the state at the moment of the raise). -/
def roundNet (S : Net V) : Net V :=
  match round1 S with
  | .ok T _ => T
  | .err e => e

/-- The dict state after `k` rounds. -/
def afterRounds : Net V → Nat → Net V
  | S, 0 => S
  | S, k + 1 => afterRounds (roundNet S) k

/-- `Reaches S T`: the round loop can take the dict from state `S` to
state `T` by zero or more completed (exception-free) rounds. -/
inductive Reaches {V : Type} [DecidableEq V] : Net V → Net V → Prop where
  | refl (S : Net V) : Reaches S S
  | step {S T U : Net V} {c : Nat} (h : round1 S = .ok T c) (h2 : Reaches T U) : Reaches S U

/-- The adjacency structure of the network: each node's neighbour dict. -/
abbrev Adj (V : Type) := List (V × List (V × Int))

/-- The adjacency structure of a dict of nodes. -/
def adjOf (S : Net V) : Adj V := S.map (fun p => (p.1, p.2.vicini))

/-- The node names of an adjacency structure. -/
def adjNames (A : Adj V) : List V := A.map Prod.fst

/-- The cost stored in `u`'s neighbour dict for `v`, if any. -/
def edgeC (A : Adj V) (u v : V) : Option Int :=
  (lookupL A u).bind (fun l => lookupL l v)

/-- A walk of total weight `w` from `u` to `v` along stored neighbour
links, each step priced by the stepping node's own neighbour dict. -/
inductive PathW {V : Type} [DecidableEq V] (A : Adj V) : V → V → Int → Prop where
  | nil (u : V) (hu : u ∈ adjNames A) : PathW A u u 0
  | cons {u v w : V} {c d : Int} (h : edgeC A u v = some c) (p : PathW A v w d) :
      PathW A u w (c + d)

/-- Every stored link cost is non-negative. -/
def AdjNonneg (A : Adj V) : Prop := ∀ u v c, edgeC A u v = some c → 0 ≤ c

/-- The neighbour relation is symmetric (links are installed both ways,
as the undirected topology of `main` does). -/
def AdjSym (A : Adj V) : Prop := ∀ u v, (edgeC A u v).isSome → (edgeC A v u).isSome

/-- Every name appearing in a neighbour dict is the name of a node. -/
def AdjClosed (A : Adj V) : Prop := ∀ p ∈ A, ∀ q ∈ p.2, q.1 ∈ adjNames A

/-- Every node can reach every node along stored links. -/
def StronglyConnected (A : Adj V) : Prop :=
  ∀ u v, u ∈ adjNames A → v ∈ adjNames A → ∃ w, PathW A u v w

/-- Soundness of one routing entry of node `u` for destination `dest`:
the self entry is `(self, 0)`, and any finite entry is realized by an
actual walk through the recorded next hop. -/
def GoodEntry (A : Adj V) (u : V) (dest : V) (e : Entry V) : Prop :=
  (dest = u → e = (some u, Distanza.fin 0)) ∧
  (dest ≠ u → ∀ w, e.2 = Distanza.fin w →
    ∃ hop c w2, e.1 = some hop ∧ edgeC A u hop = some c ∧
      PathW A hop dest w2 ∧ w = c + w2)

/-- Soundness of a whole routing table. -/
def TableInv (A : Adj V) (u : V) (t : Table V) : Prop :=
  ∀ q ∈ t, GoodEntry A u q.1 q.2

/-- Soundness of every routing table of the dict. -/
def InvNet (A : Adj V) (S : Net V) : Prop := ∀ p ∈ S, TableInv A p.1 p.2.tabella

/-- Soundness of a distance vector sent by `s`: every finite distance it
carries is the weight of an actual walk from `s`. -/
def VecGood (A : Adj V) (s : V) (vec : List (V × Distanza)) : Prop :=
  ∀ q ∈ vec, ∀ w, q.2 = Distanza.fin w → PathW A s q.1 w

/-- Every routing table is keyed by exactly the node names of the dict,
in dict order. -/
def KeysOK (S : Net V) : Prop :=
  ∀ p ∈ S, p.2.tabella.map Prod.fst = S.map Prod.fst

/-- Every node's entry for its own name is `(self, 0)`. -/
def SelfZero (S : Net V) : Prop :=
  ∀ p ∈ S, lookupL p.2.tabella p.2.nome = some (some p.2.nome, Distanza.fin 0)

/-- Every stored distance is non-negative. -/
def EntriesNonneg (S : Net V) : Prop :=
  ∀ p ∈ S, ∀ q ∈ p.2.tabella, Distanza.le (Distanza.fin 0) q.2.2

/-- Every stored link cost of the dict is non-negative. -/
def CostsNonneg (S : Net V) : Prop :=
  ∀ p ∈ S, ∀ q ∈ p.2.vicini, 0 ≤ q.2

/-- The live dict still carries the adjacency `A`: every node's
neighbour dict is the one `A` records for its key. -/
def AdjAgrees (A : Adj V) (S : Net V) : Prop :=
  ∀ u, (lookupL S u).map Nodo.vicini = lookupL A u

/-- Every routing table of the dict is keyed by exactly the names `N`. -/
def TabKeys (N : List V) (S : Net V) : Prop :=
  ∀ p ∈ S, ∀ x, x ∈ p.2.tabella.map Prod.fst ↔ x ∈ N

/-- The no-improvement inequalities of a fixed point: no delivery of a
round run from `S` could lower any entry. -/
def FixIneq (S : Net V) : Prop :=
  ∀ p ∈ S, ∀ r ∈ p.2.vicini.map Prod.fst, ∀ nr, lookupL S r = some nr →
    ∀ c, lookupL nr.vicini p.1 = some c →
      ∀ q ∈ invia_vettore p.2, Distanza.le (entryDist S r q.1) (Distanza.addC c q.2)

/-- Modelled from the spec: the incoming traffic of receiver `w` in one
synchronous round, computed purely from the prior-round state `S` — each
sender that lists `w` as a neighbour contributes its exported vector, in
dict order. -/
def deliveriesTo (S : Net V) (w : V) : List (V × List (V × Distanza)) :=
  (S.filter (fun p => (lookupL p.2.vicini w).isSome)).map (fun p => (p.1, invia_vettore p.2))

/-- Modelled from the spec: fold a receiver's incoming vectors into its
table (the write generation of a double-buffered round). -/
def applyIncoming : Nodo V → List (V × List (V × Distanza)) → Option (Nodo V)
  | n, [] => some n
  | n, (s, vec) :: rest =>
    match aggiorna_tabella n s vec with
    | .ok n' _ => applyIncoming n' rest
    | .keyError _ => none

/-- Modelled from the spec: body of `doubleBufferedRound`, mapping every
node to its next-generation table. -/
def doubleBufferedAux (S : Net V) : Net V → Option (Net V)
  | [] => some []
  | p :: rest =>
    match applyIncoming p.2 (deliveriesTo S p.1) with
    | none => none
    | some n' =>
      match doubleBufferedAux S rest with
      | none => none
      | some rest' => some ((p.1, n') :: rest')

/-- Modelled from the spec: a double-buffered synchronous round — every
node's new table is computed purely from the prior round's tables (all
reads from generation `S`, all writes to the result). -/
def doubleBufferedRound (S : Net V) : Option (Net V) := doubleBufferedAux S S

/-- The initialized dict of the `main` topology. -/
def net4i : Net Ident := initNet nodi4

/-- The dict state of the `main` topology after the full `simula` run
(`max_iter = 10`, the default used by `main`). -/
def net4fin : Net Ident :=
  match simula nodi4 10 with
  | .ok n _ => n
  | .err e => e

/-- The per-round update counts of the `main` run. -/
def counts4 : List Nat :=
  match simula nodi4 10 with
  | .ok _ c => c
  | .err _ => []

/-- A topology with a single isolated node. -/
def netIsolato : Net Ident := [(Ident.E, { nome := Ident.E, vicini := [], tabella := [] })]

/-- Node `A` of the `main` topology before initialization. -/
def nodoABase : Nodo Ident := { nome := Ident.A, vicini := [(Ident.B, 1), (Ident.C, 4)], tabella := [] }

/-- Node `A` of the `main` topology with its table initialized. -/
def nodoA0 : Nodo Ident := inizializza_tabella nodoABase [Ident.A, Ident.B, Ident.C, Ident.D]

/-- A vector whose first destination strictly improves `A`'s table and
whose second destination is unknown to it. -/
def vettoreBad : List (Ident × Distanza) :=
  [(Ident.C, Distanza.fin 0), (Ident.Z, Distanza.fin 0)]

/-- The dict state of the `main` topology after round 1, written out. -/
def net4r1L : Net Ident :=
  [ (Ident.A, ⟨Ident.A, [(Ident.B, 1), (Ident.C, 4)],
      [(Ident.A, some Ident.A, Distanza.fin 0),
       (Ident.B, some Ident.B, Distanza.fin 1),
       (Ident.C, some Ident.B, Distanza.fin 3),
       (Ident.D, some Ident.C, Distanza.fin 5)]⟩),
    (Ident.B, ⟨Ident.B, [(Ident.A, 1), (Ident.C, 2), (Ident.D, 7)],
      [(Ident.A, some Ident.A, Distanza.fin 1),
       (Ident.B, some Ident.B, Distanza.fin 0),
       (Ident.C, some Ident.C, Distanza.fin 2),
       (Ident.D, some Ident.C, Distanza.fin 3)]⟩),
    (Ident.C, ⟨Ident.C, [(Ident.A, 4), (Ident.B, 2), (Ident.D, 1)],
      [(Ident.A, some Ident.B, Distanza.fin 3),
       (Ident.B, some Ident.B, Distanza.fin 2),
       (Ident.C, some Ident.C, Distanza.fin 0),
       (Ident.D, some Ident.D, Distanza.fin 1)]⟩),
    (Ident.D, ⟨Ident.D, [(Ident.B, 7), (Ident.C, 1)],
      [(Ident.A, some Ident.C, Distanza.fin 5),
       (Ident.B, some Ident.C, Distanza.fin 3),
       (Ident.C, some Ident.C, Distanza.fin 1),
       (Ident.D, some Ident.D, Distanza.fin 0)]⟩) ]

/-- The dict state of the `main` topology after round 2, written out;
round 3 produces no change, so this is also the converged state. -/
def net4r2L : Net Ident :=
  [ (Ident.A, ⟨Ident.A, [(Ident.B, 1), (Ident.C, 4)],
      [(Ident.A, some Ident.A, Distanza.fin 0),
       (Ident.B, some Ident.B, Distanza.fin 1),
       (Ident.C, some Ident.B, Distanza.fin 3),
       (Ident.D, some Ident.B, Distanza.fin 4)]⟩),
    (Ident.B, ⟨Ident.B, [(Ident.A, 1), (Ident.C, 2), (Ident.D, 7)],
      [(Ident.A, some Ident.A, Distanza.fin 1),
       (Ident.B, some Ident.B, Distanza.fin 0),
       (Ident.C, some Ident.C, Distanza.fin 2),
       (Ident.D, some Ident.C, Distanza.fin 3)]⟩),
    (Ident.C, ⟨Ident.C, [(Ident.A, 4), (Ident.B, 2), (Ident.D, 1)],
      [(Ident.A, some Ident.B, Distanza.fin 3),
       (Ident.B, some Ident.B, Distanza.fin 2),
       (Ident.C, some Ident.C, Distanza.fin 0),
       (Ident.D, some Ident.D, Distanza.fin 1)]⟩),
    (Ident.D, ⟨Ident.D, [(Ident.B, 7), (Ident.C, 1)],
      [(Ident.A, some Ident.C, Distanza.fin 4),
       (Ident.B, some Ident.C, Distanza.fin 3),
       (Ident.C, some Ident.C, Distanza.fin 1),
       (Ident.D, some Ident.D, Distanza.fin 0)]⟩) ]

/-! ### Basic facts about distances and dict operations -/

theorem Distanza.le_refl (d : Distanza) : Distanza.le d d := by
  cases d <;> simp [Distanza.le]

theorem Distanza.le_trans {a b c : Distanza} (h1 : Distanza.le a b) (h2 : Distanza.le b c) :
    Distanza.le a c := by
  cases a <;> cases b <;> cases c <;> simp_all [Distanza.le] <;> omega

theorem Distanza.le_of_not_lt {a b : Distanza} (h : ¬ Distanza.lt a b) : Distanza.le b a := by
  cases a <;> cases b <;> simp_all [Distanza.le, Distanza.lt]

theorem Distanza.le_of_lt {a b : Distanza} (h : Distanza.lt a b) : Distanza.le a b := by
  cases a <;> cases b <;> simp_all [Distanza.le, Distanza.lt] <;> omega

theorem Distanza.addC_mono {c : Int} {a b : Distanza} (h : Distanza.le a b) :
    Distanza.le (Distanza.addC c a) (Distanza.addC c b) := by
  cases a <;> cases b <;> simp_all [Distanza.le, Distanza.addC]

theorem Distanza.le_fin_inv {d : Distanza} {w : Int} (h : Distanza.le d (Distanza.fin w)) :
    ∃ w', d = Distanza.fin w' ∧ w' ≤ w := by
  cases d <;> simp_all [Distanza.le]

theorem Distanza.addC_nonneg {c : Int} {d : Distanza} (hc : 0 ≤ c)
    (hd : Distanza.le (Distanza.fin 0) d) :
    Distanza.le (Distanza.fin 0) (Distanza.addC c d) := by
  cases d <;> simp_all [Distanza.le, Distanza.addC] <;> omega

theorem Distanza.not_lt_zero {c : Int} {d : Distanza} (hc : 0 ≤ c)
    (hd : Distanza.le (Distanza.fin 0) d) :
    ¬ Distanza.lt (Distanza.addC c d) (Distanza.fin 0) := by
  cases d <;> simp_all [Distanza.le, Distanza.lt, Distanza.addC] <;> omega

theorem lookupL_mem {α : Type} {l : List (V × α)} {k : V} {v : α}
    (h : lookupL l k = some v) : (k, v) ∈ l := by
  induction l with
  | nil => simp [lookupL] at h
  | cons p rest ih =>
    rw [lookupL] at h
    by_cases hk : p.1 = k
    · rw [if_pos hk] at h
      injection h with h
      have hp : p = (k, v) := by cases p; simp_all
      rw [← hp]
      exact List.mem_cons_self p rest
    · rw [if_neg hk] at h
      exact List.mem_cons_of_mem _ (ih h)

theorem lookupL_isSome {α : Type} {l : List (V × α)} {k : V} :
    (lookupL l k).isSome ↔ k ∈ l.map Prod.fst := by
  induction l with
  | nil => simp [lookupL]
  | cons p rest ih =>
    by_cases hk : p.1 = k
    · simp [lookupL, hk]
    · simp [lookupL, hk, ih, Ne.symm hk]

theorem lookupL_eq_none {α : Type} {l : List (V × α)} {k : V} :
    lookupL l k = none ↔ k ∉ l.map Prod.fst := by
  rw [← lookupL_isSome]
  cases lookupL l k <;> simp

theorem lookupL_of_mem_nodup {α : Type} {l : List (V × α)} {k : V} {v : α}
    (hn : (l.map Prod.fst).Nodup) (h : (k, v) ∈ l) : lookupL l k = some v := by
  induction l with
  | nil => simp at h
  | cons p rest ih =>
    rw [List.map_cons, List.nodup_cons] at hn
    rw [List.mem_cons] at h
    rcases h with h | h
    · rw [← h]
      simp [lookupL]
    · have hk : ¬ p.1 = k := by
        intro hc
        apply hn.1
        rw [hc]
        exact List.mem_map_of_mem Prod.fst h
      rw [lookupL, if_neg hk]
      exact ih hn.2 h

theorem lookupL_map_val {α β : Type} (f : α → β) (l : List (V × α)) (k : V) :
    lookupL (l.map (fun p => (p.1, f p.2))) k = (lookupL l k).map f := by
  induction l with
  | nil => simp [lookupL]
  | cons p rest ih =>
    by_cases hk : p.1 = k <;> simp [lookupL, hk, ih]

theorem lookupL_cons {α : Type} (p : V × α) (rest : List (V × α)) (k : V) :
    lookupL (p :: rest) k = if p.1 = k then some p.2 else lookupL rest k := rfl

theorem lookupL_replace {α : Type} (l : List (V × α)) (k : V) (v : α) (x : V) :
    lookupL (l.map (fun p => if p.1 = k then (k, v) else p)) x =
      if x = k then (lookupL l k).map (fun _ => v) else lookupL l x := by
  induction l with
  | nil => by_cases hxk : x = k <;> simp [lookupL, hxk]
  | cons p rest ih =>
    simp only [List.map_cons, lookupL_cons]
    by_cases hpk : p.1 = k
    · by_cases hxk : x = k
      · subst hxk
        simp [hpk]
      · have hkx : ¬ k = x := fun h => hxk h.symm
        simp [hpk, hxk, hkx, ih]
    · by_cases hpx : p.1 = x
      · have hxk : ¬ x = k := fun h => hpk (hpx.trans h)
        simp [hpk, hpx, hxk]
      · simp [hpk, hpx, ih]

theorem lookupL_append_single {α : Type} {l : List (V × α)} {k : V} (v : α)
    (x : V) (hk : k ∉ l.map Prod.fst) :
    lookupL (l ++ [(k, v)]) x = if x = k then some v else lookupL l x := by
  induction l with
  | nil =>
    by_cases hxk : x = k
    · subst hxk
      simp [lookupL]
    · have hkx : ¬ k = x := fun h => hxk h.symm
      simp [lookupL, hxk, hkx]
  | cons p rest ih =>
    simp only [List.map_cons, List.mem_cons] at hk
    push_neg at hk
    rw [List.cons_append, lookupL_cons, lookupL_cons]
    by_cases hpx : p.1 = x
    · have hxk : ¬ x = k := by
        intro h
        exact hk.1 (hpx.trans h).symm
      rw [if_pos hpx, if_pos hpx, if_neg hxk]
    · rw [if_neg hpx, if_neg hpx]
      exact ih hk.2

theorem lookupL_dictSet {α : Type} (l : List (V × α)) (k : V) (v : α) (x : V) :
    lookupL (dictSet l k v) x = if x = k then some v else lookupL l x := by
  unfold dictSet
  by_cases hmem : k ∈ l.map Prod.fst
  · rw [if_pos hmem, lookupL_replace]
    by_cases hxk : x = k
    · rw [if_pos hxk, if_pos hxk]
      obtain ⟨v0, hv0⟩ := Option.isSome_iff_exists.mp (lookupL_isSome.mpr hmem)
      rw [hv0]
      rfl
    · rw [if_neg hxk, if_neg hxk]
  · rw [if_neg hmem, lookupL_append_single v x hmem]

theorem replace_map_fst {α : Type} (l : List (V × α)) (k : V) (v : α) :
    (l.map (fun p => if p.1 = k then (k, v) else p)).map Prod.fst = l.map Prod.fst := by
  induction l with
  | nil => simp
  | cons p rest ih =>
    by_cases hpk : p.1 = k <;> simp [hpk, ih]

theorem dictSet_map_fst_of_mem {α : Type} {l : List (V × α)} {k : V} (v : α)
    (h : k ∈ l.map Prod.fst) : (dictSet l k v).map Prod.fst = l.map Prod.fst := by
  unfold dictSet
  rw [if_pos h]
  exact replace_map_fst l k v

theorem dictSet_mem {α : Type} {l : List (V × α)} {k : V} {v : α} {q : V × α}
    (h : q ∈ dictSet l k v) : q = (k, v) ∨ q ∈ l := by
  unfold dictSet at h
  by_cases hmem : k ∈ l.map Prod.fst
  · rw [if_pos hmem, List.mem_map] at h
    rcases h with ⟨p, hp, hq⟩
    by_cases hpk : p.1 = k
    · rw [if_pos hpk] at hq
      left
      exact hq.symm
    · rw [if_neg hpk] at hq
      right
      rw [← hq]
      exact hp
  · rw [if_neg hmem, List.mem_append] at h
    rcases h with h | h
    · right
      exact h
    · left
      simpa using h

theorem netSet_map_fst (S : Net V) (k : V) (v : Nodo V) :
    (netSet S k v).map Prod.fst = S.map Prod.fst := by
  unfold netSet
  exact replace_map_fst S k v

theorem lookupL_netSet (S : Net V) (k : V) (v : Nodo V) (x : V) :
    lookupL (netSet S k v) x =
      if x = k then (lookupL S k).map (fun _ => v) else lookupL S x := by
  unfold netSet
  exact lookupL_replace S k v x

/-! ### Lemmas about the update loop `aggLoop` -/

theorem aggLoop_keys (c : Int) (s : V) :
    ∀ (vec : List (V × Distanza)) (t : Table V) (m : Bool),
      (aggLoop c s t vec m).table.map Prod.fst = t.map Prod.fst := by
  intro vec
  induction vec with
  | nil => intro t m; rfl
  | cons q rest ih =>
    intro t m
    rw [aggLoop]
    cases hq : lookupL t q.1 with
    | none => rfl
    | some e =>
      dsimp only
      by_cases hlt : Distanza.lt (Distanza.addC c q.2) e.2
      · rw [if_pos hlt, ih]
        exact dictSet_map_fst_of_mem _ (lookupL_isSome.mp (by rw [hq]; rfl))
      · rw [if_neg hlt, ih]

theorem aggLoop_mono (c : Int) (s : V) :
    ∀ (vec : List (V × Distanza)) (t : Table V) (m : Bool) (d : V),
      Distanza.le (tDist (aggLoop c s t vec m).table d) (tDist t d) := by
  intro vec
  induction vec with
  | nil => intro t m d; exact Distanza.le_refl _
  | cons q rest ih =>
    intro t m d
    rw [aggLoop]
    cases hq : lookupL t q.1 with
    | none => exact Distanza.le_refl _
    | some e =>
      dsimp only
      by_cases hlt : Distanza.lt (Distanza.addC c q.2) e.2
      · rw [if_pos hlt]
        refine Distanza.le_trans (ih _ _ d) ?_
        unfold tDist
        rw [lookupL_dictSet]
        by_cases hd : d = q.1
        · subst hd
          rw [if_pos rfl, hq]
          exact Distanza.le_of_lt hlt
        · rw [if_neg hd]
          exact Distanza.le_refl _
      · rw [if_neg hlt]
        exact ih _ _ d

theorem aggLoop_true (c : Int) (s : V) :
    ∀ (vec : List (V × Distanza)) (t : Table V) (t' : Table V) (m' : Bool),
      aggLoop c s t vec true = .ok t' m' → m' = true := by
  intro vec
  induction vec with
  | nil => intro t t' m' h; cases h; rfl
  | cons q rest ih =>
    intro t t' m' h
    rw [aggLoop] at h
    cases hq : lookupL t q.1 with
    | none => rw [hq] at h; cases h
    | some e =>
      rw [hq] at h
      dsimp only at h
      by_cases hlt : Distanza.lt (Distanza.addC c q.2) e.2
      · rw [if_pos hlt] at h
        exact ih _ _ _ h
      · rw [if_neg hlt] at h
        exact ih _ _ _ h

theorem aggLoop_false (c : Int) (s : V) :
    ∀ (vec : List (V × Distanza)) (t : Table V) (m : Bool) (t' : Table V),
      aggLoop c s t vec m = .ok t' false →
      t' = t ∧ m = false ∧
        ∀ q ∈ vec, ∃ e, lookupL t q.1 = some e ∧
          ¬ Distanza.lt (Distanza.addC c q.2) e.2 := by
  intro vec
  induction vec with
  | nil =>
    intro t m t' h
    cases h
    exact ⟨rfl, rfl, by simp⟩
  | cons q rest ih =>
    intro t m t' h
    rw [aggLoop] at h
    cases hq : lookupL t q.1 with
    | none => rw [hq] at h; cases h
    | some e =>
      rw [hq] at h
      dsimp only at h
      by_cases hlt : Distanza.lt (Distanza.addC c q.2) e.2
      · rw [if_pos hlt] at h
        exact absurd (aggLoop_true c s rest _ _ _ h) (by simp)
      · rw [if_neg hlt] at h
        obtain ⟨ht, hm, hrest⟩ := ih _ _ _ h
        refine ⟨ht, hm, ?_⟩
        intro p hp
        rcases List.mem_cons.mp hp with hp | hp
        · subst hp
          exact ⟨e, hq, hlt⟩
        · exact hrest p hp

theorem aggLoop_ok (c : Int) (s : V) :
    ∀ (vec : List (V × Distanza)) (t : Table V) (m : Bool),
      (∀ q ∈ vec, q.1 ∈ t.map Prod.fst) →
      ∃ t' m', aggLoop c s t vec m = .ok t' m' := by
  intro vec
  induction vec with
  | nil => intro t m _; exact ⟨t, m, rfl⟩
  | cons q rest ih =>
    intro t m hall
    rw [aggLoop]
    have hq : (lookupL t q.1).isSome :=
      lookupL_isSome.mpr (hall q (List.mem_cons_self q rest))
    cases hqe : lookupL t q.1 with
    | none => rw [hqe] at hq; cases hq
    | some e =>
      dsimp only
      by_cases hlt : Distanza.lt (Distanza.addC c q.2) e.2
      · rw [if_pos hlt]
        refine ih _ _ ?_
        intro p hp
        rw [dictSet_map_fst_of_mem _ (lookupL_isSome.mp (by rw [hqe]; rfl))]
        exact hall p (List.mem_cons_of_mem q hp)
      · rw [if_neg hlt]
        exact ih _ _ (fun p hp => hall p (List.mem_cons_of_mem q hp))

theorem aggLoop_char (c : Int) (s : V) :
    ∀ (vec : List (V × Distanza)) (t : Table V) (m : Bool) (t' : Table V) (m' : Bool),
      (vec.map Prod.fst).Nodup →
      aggLoop c s t vec m = .ok t' m' →
      (∀ d, d ∉ vec.map Prod.fst → lookupL t' d = lookupL t d) ∧
      (∀ d μ, (d, μ) ∈ vec → ∃ e, lookupL t d = some e ∧
        lookupL t' d = (if Distanza.lt (Distanza.addC c μ) e.2
          then some (some s, Distanza.addC c μ) else some e)) ∧
      (m' = true ↔ (m = true ∨ ∃ d μ e, (d, μ) ∈ vec ∧ lookupL t d = some e ∧
        Distanza.lt (Distanza.addC c μ) e.2)) := by
  intro vec
  induction vec with
  | nil =>
    intro t m t' m' _ h
    cases h
    exact ⟨fun d _ => rfl, by simp, by simp⟩
  | cons q0 rest ih =>
    intro t m t' m' hnod h
    obtain ⟨d0, μ0⟩ := q0
    rw [List.map_cons, List.nodup_cons] at hnod
    rw [aggLoop] at h
    cases hq : lookupL t d0 with
    | none => rw [hq] at h; cases h
    | some e0 =>
      rw [hq] at h
      dsimp only at h
      by_cases hlt : Distanza.lt (Distanza.addC c μ0) e0.2
      · rw [if_pos hlt] at h
        obtain ⟨habs, hpres, hflag⟩ := ih _ _ _ _ hnod.2 h
        refine ⟨?_, ?_, ?_⟩
        · intro d hd
          rw [List.map_cons, List.mem_cons] at hd
          push_neg at hd
          rw [habs d hd.2, lookupL_dictSet, if_neg hd.1]
        · intro d μ hmem
          rcases List.mem_cons.mp hmem with heq | hmem'
          · have hd : d = d0 := congrArg Prod.fst heq
            have hμ : μ = μ0 := congrArg Prod.snd heq
            rw [hd, hμ]
            refine ⟨e0, hq, ?_⟩
            rw [if_pos hlt, habs d0 hnod.1, lookupL_dictSet, if_pos rfl]
          · have hd0 : d ≠ d0 := by
              intro hc
              apply hnod.1
              show d0 ∈ List.map Prod.fst rest
              rw [← hc]
              exact List.mem_map_of_mem Prod.fst hmem'
            obtain ⟨e, he1, he2⟩ := hpres d μ hmem'
            rw [lookupL_dictSet, if_neg hd0] at he1
            exact ⟨e, he1, he2⟩
        · constructor
          · intro _
            exact Or.inr ⟨d0, μ0, e0, List.mem_cons_self _ _, hq, hlt⟩
          · intro _
            exact hflag.mpr (Or.inl rfl)
      · rw [if_neg hlt] at h
        obtain ⟨habs, hpres, hflag⟩ := ih _ _ _ _ hnod.2 h
        refine ⟨?_, ?_, ?_⟩
        · intro d hd
          rw [List.map_cons, List.mem_cons] at hd
          push_neg at hd
          exact habs d hd.2
        · intro d μ hmem
          rcases List.mem_cons.mp hmem with heq | hmem'
          · have hd : d = d0 := congrArg Prod.fst heq
            have hμ : μ = μ0 := congrArg Prod.snd heq
            rw [hd, hμ]
            refine ⟨e0, hq, ?_⟩
            rw [if_neg hlt, habs d0 hnod.1]
            exact hq
          · exact hpres d μ hmem'
        · constructor
          · intro hm'
            rcases hflag.mp hm' with h1 | ⟨d, μ, e, hmem', hl, hlt'⟩
            · exact Or.inl h1
            · exact Or.inr ⟨d, μ, e, List.mem_cons_of_mem _ hmem', hl, hlt'⟩
          · intro hOr
            apply hflag.mpr
            rcases hOr with h1 | ⟨d, μ, e, hmem', hl, hlt'⟩
            · exact Or.inl h1
            · rcases List.mem_cons.mp hmem' with heq | hmem''
              · exfalso
                have hd : d = d0 := congrArg Prod.fst heq
                have hμ : μ = μ0 := congrArg Prod.snd heq
                rw [hd, hq] at hl
                have he : e = e0 := (Option.some.inj hl).symm
                rw [hμ, he] at hlt'
                exact hlt hlt'
              · exact Or.inr ⟨d, μ, e, hmem'', hl, hlt'⟩

/-! ### Lemmas about `aggiorna_tabella` and `inizializza_tabella` -/

theorem aggLoop_append (c : Int) (s : V) :
    ∀ (pre rest : List (V × Distanza)) (t t1 : Table V) (m m1 : Bool),
      aggLoop c s t pre m = .ok t1 m1 →
      aggLoop c s t (pre ++ rest) m = aggLoop c s t1 rest m1 := by
  intro pre
  induction pre with
  | nil =>
    intro rest t t1 m m1 h
    cases h
    rfl
  | cons q pr ih =>
    intro rest t t1 m m1 h
    rw [aggLoop] at h
    rw [List.cons_append, aggLoop]
    cases hq : lookupL t q.1 with
    | none => rw [hq] at h; cases h
    | some e =>
      rw [hq] at h
      dsimp only at h
      dsimp only
      by_cases hlt : Distanza.lt (Distanza.addC c q.2) e.2
      · rw [if_pos hlt] at h
        rw [if_pos hlt]
        exact ih rest _ _ _ _ h
      · rw [if_neg hlt] at h
        rw [if_neg hlt]
        exact ih rest _ _ _ _ h

theorem aggiorna_nodo_fields (n : Nodo V) (s : V) (vec : List (V × Distanza)) :
    ((aggiorna_tabella n s vec).nodo).nome = n.nome ∧
    ((aggiorna_tabella n s vec).nodo).vicini = n.vicini := by
  unfold aggiorna_tabella
  cases lookupL n.vicini s with
  | none => exact ⟨rfl, rfl⟩
  | some c =>
    dsimp only
    cases aggLoop c s n.tabella vec false with
    | ok t m => exact ⟨rfl, rfl⟩
    | keyError t => exact ⟨rfl, rfl⟩

theorem aggiorna_keys (n : Nodo V) (s : V) (vec : List (V × Distanza)) :
    ((aggiorna_tabella n s vec).nodo).tabella.map Prod.fst = n.tabella.map Prod.fst := by
  unfold aggiorna_tabella
  cases lookupL n.vicini s with
  | none => rfl
  | some c =>
    dsimp only
    have hk := aggLoop_keys c s vec n.tabella false
    cases h : aggLoop c s n.tabella vec false with
    | ok t m =>
      rw [h] at hk
      exact hk
    | keyError t =>
      rw [h] at hk
      exact hk

theorem aggiorna_mono (n : Nodo V) (s : V) (vec : List (V × Distanza)) (d : V) :
    Distanza.le (tDist ((aggiorna_tabella n s vec).nodo).tabella d) (tDist n.tabella d) := by
  unfold aggiorna_tabella
  cases lookupL n.vicini s with
  | none => exact Distanza.le_refl _
  | some c =>
    dsimp only
    have hm := aggLoop_mono c s vec n.tabella false d
    cases h : aggLoop c s n.tabella vec false with
    | ok t m =>
      rw [h] at hm
      exact hm
    | keyError t =>
      rw [h] at hm
      exact hm

theorem aggiorna_false {n n' : Nodo V} {s : V} {vec : List (V × Distanza)}
    (h : aggiorna_tabella n s vec = .ok n' false) :
    n' = n ∧ ∃ c, lookupL n.vicini s = some c ∧
      ∀ q ∈ vec, ∃ e, lookupL n.tabella q.1 = some e ∧
        ¬ Distanza.lt (Distanza.addC c q.2) e.2 := by
  unfold aggiorna_tabella at h
  cases hc : lookupL n.vicini s with
  | none => rw [hc] at h; cases h
  | some c =>
    rw [hc] at h
    dsimp only at h
    cases hl : aggLoop c s n.tabella vec false with
    | ok t m =>
      rw [hl] at h
      injection h with h1 h2
      subst h2
      obtain ⟨ht, _, hrest⟩ := aggLoop_false c s vec n.tabella false t hl
      subst ht
      have hn : n' = n := by rw [← h1]
      exact ⟨hn, c, rfl, hrest⟩
    | keyError t =>
      rw [hl] at h
      cases h

theorem aggiorna_ok {n : Nodo V} {s : V} {vec : List (V × Distanza)} {c : Int}
    (hc : lookupL n.vicini s = some c)
    (hall : ∀ q ∈ vec, q.1 ∈ n.tabella.map Prod.fst) :
    ∃ t m, aggLoop c s n.tabella vec false = .ok t m ∧
      aggiorna_tabella n s vec = .ok { n with tabella := t } m := by
  obtain ⟨t, m, h⟩ := aggLoop_ok c s vec n.tabella false hall
  refine ⟨t, m, h, ?_⟩
  unfold aggiorna_tabella
  rw [hc]
  dsimp only
  rw [h]

theorem foldInit_lookup (n : Nodo V) :
    ∀ (tutti : List V) (t : Table V) (x : V),
      lookupL (tutti.foldl (fun t x => dictSet t x (initEntry n x)) t) x =
        if x ∈ tutti then some (initEntry n x) else lookupL t x := by
  intro tutti
  induction tutti with
  | nil =>
    intro t x
    simp
  | cons y rest ih =>
    intro t x
    rw [List.foldl_cons, ih]
    by_cases hx : x ∈ rest
    · rw [if_pos hx, if_pos (List.mem_cons_of_mem y hx)]
    · rw [if_neg hx, lookupL_dictSet]
      by_cases hxy : x = y
      · rw [if_pos hxy, if_pos (by rw [hxy]; exact List.mem_cons_self y rest)]
        rw [hxy]
      · rw [if_neg hxy, if_neg ?_]
        intro hmem
        rcases List.mem_cons.mp hmem with h | h
        · exact hxy h
        · exact hx h

theorem dictSet_keys_nodup {α : Type} {l : List (V × α)} {k : V} {v : α}
    (h : (l.map Prod.fst).Nodup) : ((dictSet l k v).map Prod.fst).Nodup := by
  unfold dictSet
  by_cases hmem : k ∈ l.map Prod.fst
  · rw [if_pos hmem, replace_map_fst]
    exact h
  · rw [if_neg hmem, List.map_append]
    simp only [List.map_cons, List.map_nil]
    rw [List.nodup_append]
    refine ⟨h, List.nodup_singleton k, ?_⟩
    intro a ha hak
    rw [List.mem_singleton] at hak
    exact hmem (hak ▸ ha)

theorem dictSet_keys_mem {α : Type} {l : List (V × α)} {k : V} {v : α} {x : V} :
    x ∈ (dictSet l k v).map Prod.fst ↔ x = k ∨ x ∈ l.map Prod.fst := by
  rw [← lookupL_isSome, lookupL_dictSet]
  by_cases hxk : x = k
  · simp [hxk]
  · simp [hxk, lookupL_isSome]

theorem foldInit_keys_nodup (n : Nodo V) :
    ∀ (tutti : List V) (t : Table V), (t.map Prod.fst).Nodup →
      ((tutti.foldl (fun t x => dictSet t x (initEntry n x)) t).map Prod.fst).Nodup := by
  intro tutti
  induction tutti with
  | nil => intro t h; exact h
  | cons y rest ih =>
    intro t h
    rw [List.foldl_cons]
    exact ih _ (dictSet_keys_nodup h)

theorem foldInit_keys_mem (n : Nodo V) :
    ∀ (tutti : List V) (t : Table V) (x : V),
      x ∈ (tutti.foldl (fun t x => dictSet t x (initEntry n x)) t).map Prod.fst ↔
        x ∈ tutti ∨ x ∈ t.map Prod.fst := by
  intro tutti
  induction tutti with
  | nil => intro t x; simp
  | cons y rest ih =>
    intro t x
    rw [List.foldl_cons, ih, dictSet_keys_mem, List.mem_cons]
    tauto

theorem foldInit_keys_exact (n : Nodo V) :
    ∀ (tutti : List V) (t : Table V),
      (∀ x ∈ tutti, x ∉ t.map Prod.fst) → tutti.Nodup →
      (tutti.foldl (fun t x => dictSet t x (initEntry n x)) t).map Prod.fst
        = t.map Prod.fst ++ tutti := by
  intro tutti
  induction tutti with
  | nil => intro t _ _; simp
  | cons y rest ih =>
    intro t hdisj hnod
    rw [List.nodup_cons] at hnod
    rw [List.foldl_cons]
    have hy : y ∉ t.map Prod.fst := hdisj y (List.mem_cons_self y rest)
    have hkeys : (dictSet t y (initEntry n y)).map Prod.fst = t.map Prod.fst ++ [y] := by
      unfold dictSet
      rw [if_neg hy, List.map_append]
      rfl
    rw [ih _ ?_ hnod.2, hkeys, List.append_assoc]
    · rfl
    · intro x hx
      rw [hkeys, List.mem_append]
      push_neg
      refine ⟨hdisj x (List.mem_cons_of_mem y hx), ?_⟩
      simp only [List.mem_singleton]
      intro hxy
      exact hnod.1 (hxy ▸ hx)

theorem inizializza_lookup (n : Nodo V) (tutti : List V) (x : V) :
    lookupL (inizializza_tabella n tutti).tabella x =
      if x ∈ tutti then some (initEntry n x) else none := by
  unfold inizializza_tabella
  dsimp only
  rw [foldInit_lookup]
  rfl

theorem inizializza_keys_exact (n : Nodo V) (tutti : List V) (h : tutti.Nodup) :
    (inizializza_tabella n tutti).tabella.map Prod.fst = tutti := by
  unfold inizializza_tabella
  dsimp only
  rw [foldInit_keys_exact n tutti [] (by simp) h]
  rfl

/-! ### Claim C3: characterization of `aggiorna_tabella` on valid input -/

/-- C3: for every node whose table is initialized and every sender present
in its neighbour map, `aggiorna_tabella` succeeds and replaces the entry of
a destination with `(sender, cost-to-sender + sender_distance)` exactly when
that candidate is strictly smaller than the stored distance (ties never
update), leaves every other entry unchanged, and returns `true` iff at
least one entry changed. -/
theorem C3_aggiorna_characterization
    (n : Nodo V) (mittente : V) (vettore : List (V × Distanza)) (c : Int)
    (hc : lookupL n.vicini mittente = some c)
    (hnod : (vettore.map Prod.fst).Nodup)
    (hall : ∀ q ∈ vettore, q.1 ∈ n.tabella.map Prod.fst) :
    ∃ n' m, aggiorna_tabella n mittente vettore = .ok n' m ∧
      (∀ d μ, (d, μ) ∈ vettore → ∃ e, lookupL n.tabella d = some e ∧
        lookupL n'.tabella d = (if Distanza.lt (Distanza.addC c μ) e.2
          then some (some mittente, Distanza.addC c μ) else some e)) ∧
      (∀ d, d ∉ vettore.map Prod.fst → lookupL n'.tabella d = lookupL n.tabella d) ∧
      (m = true ↔ ∃ d μ e, (d, μ) ∈ vettore ∧ lookupL n.tabella d = some e ∧
        Distanza.lt (Distanza.addC c μ) e.2) := by
  obtain ⟨t, m, hl, hagg⟩ := aggiorna_ok hc hall
  obtain ⟨habs, hpres, hflag⟩ := aggLoop_char c mittente vettore n.tabella false t m hnod hl
  refine ⟨{ n with tabella := t }, m, hagg, hpres, habs, ?_⟩
  rw [hflag]
  simp

/-- C3 witness: the characterization applied to node `A` of the `main`
topology receiving a concrete vector from `B`. -/
theorem C3_aggiorna_witness :
    ∃ n' m, aggiorna_tabella nodoA0 Ident.B [(Ident.C, Distanza.fin 0), (Ident.D, Distanza.fin 1)]
        = .ok n' m ∧
      (∀ d μ, (d, μ) ∈ [(Ident.C, Distanza.fin 0), (Ident.D, Distanza.fin 1)] →
        ∃ e, lookupL nodoA0.tabella d = some e ∧
        lookupL n'.tabella d = (if Distanza.lt (Distanza.addC 1 μ) e.2
          then some (some Ident.B, Distanza.addC 1 μ) else some e)) ∧
      (∀ d, d ∉ ([(Ident.C, Distanza.fin 0), (Ident.D, Distanza.fin 1)].map Prod.fst) →
        lookupL n'.tabella d = lookupL nodoA0.tabella d) ∧
      (m = true ↔ ∃ d μ e, (d, μ) ∈ [(Ident.C, Distanza.fin 0), (Ident.D, Distanza.fin 1)] ∧
        lookupL nodoA0.tabella d = some e ∧
        Distanza.lt (Distanza.addC 1 μ) e.2) :=
  C3_aggiorna_characterization nodoA0 Ident.B [(Ident.C, Distanza.fin 0), (Ident.D, Distanza.fin 1)] 1
    (by decide) (by decide) (by decide)

/-! ### Claim C4: characterization of `inizializza_tabella` -/

/-- C4: after `inizializza_tabella(all_identities)` the routing table has
exactly one entry per identity of the given set: `(self, 0)` for the node's
own identity, `(identity, link cost)` for a direct neighbour, `(none, inf)`
for every other identity. -/
theorem C4_inizializza_characterization (n : Nodo V) (tutti : List V) :
    (((inizializza_tabella n tutti).tabella.map Prod.fst).Nodup) ∧
    (∀ x, x ∈ (inizializza_tabella n tutti).tabella.map Prod.fst ↔ x ∈ tutti) ∧
    (∀ x ∈ tutti, lookupL (inizializza_tabella n tutti).tabella x =
      some (if x = n.nome then (some n.nome, Distanza.fin 0)
        else match lookupL n.vicini x with
          | some c => (some x, Distanza.fin c)
          | none => (none, Distanza.inf))) := by
  refine ⟨?_, ?_, ?_⟩
  · unfold inizializza_tabella
    dsimp only
    exact foldInit_keys_nodup n tutti [] (by simp)
  · intro x
    unfold inizializza_tabella
    dsimp only
    rw [foldInit_keys_mem]
    simp
  · intro x hx
    rw [inizializza_lookup, if_pos hx]
    rfl

/-- C4 witness: the characterization applied to node `A` of the `main`
topology, read back at the neighbour `B`, at the node itself and at the
non-neighbour `D`. -/
theorem C4_inizializza_witness :
    (Ident.B ∈ ([Ident.A, Ident.B, Ident.C, Ident.D] : List Ident)) ∧
    lookupL nodoA0.tabella Ident.B = some (some Ident.B, Distanza.fin 1) ∧
    lookupL nodoA0.tabella Ident.A = some (some Ident.A, Distanza.fin 0) ∧
    lookupL nodoA0.tabella Ident.D = some (none, Distanza.inf) :=
  ⟨by decide,
   (C4_inizializza_characterization nodoABase [Ident.A, Ident.B, Ident.C, Ident.D]).2.2 Ident.B (by decide),
   (C4_inizializza_characterization nodoABase [Ident.A, Ident.B, Ident.C, Ident.D]).2.2 Ident.A (by decide),
   (C4_inizializza_characterization nodoABase [Ident.A, Ident.B, Ident.C, Ident.D]).2.2 Ident.D (by decide)⟩

/-! ### Claim C10: `KeyError` on unknown destinations -/

/-- C10 counterexample: on a vector whose first destination strictly
improves the table and whose second destination is unknown, the update
raises `KeyError`, but the entry for the first destination HAS been
modified before the failure — refuting that the failing update leaves no
entry modified. -/
theorem C10_counterexample :
    (aggiorna_tabella nodoA0 Ident.B vettoreBad).isKeyError = true ∧
    lookupL ((aggiorna_tabella nodoA0 Ident.B vettoreBad).nodo).tabella Ident.C =
      some (some Ident.B, Distanza.fin 1) ∧
    lookupL nodoA0.tabella Ident.C = some (some Ident.C, Distanza.fin 4) := by
  decide

/-- C10 (amended): on a vector containing a destination unknown to the
table, `aggiorna_tabella` raises `KeyError`; the destinations before the
failing one have already been relaxed in place and those modifications
survive in the raised state; and (second half, as claimed) no outcome of
`aggiorna_tabella` ever inserts or removes a destination key. -/
theorem C10_amended :
    (∀ (n : Nodo V) (mittente bad : V) (c : Int) (μ : Distanza)
        (pre post : List (V × Distanza)),
      lookupL n.vicini mittente = some c →
      (∀ q ∈ pre, q.1 ∈ n.tabella.map Prod.fst) →
      bad ∉ n.tabella.map Prod.fst →
      ∃ t1 m1, aggLoop c mittente n.tabella pre false = .ok t1 m1 ∧
        aggiorna_tabella n mittente (pre ++ (bad, μ) :: post)
          = .keyError { n with tabella := t1 } ∧
        t1.map Prod.fst = n.tabella.map Prod.fst) ∧
    (∀ (n : Nodo V) (mittente : V) (vettore : List (V × Distanza)),
      ((aggiorna_tabella n mittente vettore).nodo).tabella.map Prod.fst
        = n.tabella.map Prod.fst) := by
  constructor
  · intro n mittente bad c μ pre post hc hpre hbad
    obtain ⟨t1, m1, hl⟩ := aggLoop_ok c mittente pre n.tabella false hpre
    have hkeys := aggLoop_keys c mittente pre n.tabella false
    rw [hl] at hkeys
    dsimp only [UpdResult.table] at hkeys
    refine ⟨t1, m1, hl, ?_, hkeys⟩
    unfold aggiorna_tabella
    rw [hc]
    dsimp only
    rw [aggLoop_append c mittente pre ((bad, μ) :: post) n.tabella t1 false m1 hl]
    rw [aggLoop]
    have hbad1 : lookupL t1 bad = none := by
      rw [lookupL_eq_none, hkeys]
      exact hbad
    rw [hbad1]
  · intro n mittente vettore
    exact aggiorna_keys n mittente vettore

/-- C10 witness for the amended statement: node `A` of the `main`
topology receiving `vettoreBad` from `B` (prefix `[(Ident.C, 0)]`, unknown
destination `Z`). -/
theorem C10_amended_witness :
    ∃ t1 m1, aggLoop 1 Ident.B nodoA0.tabella [(Ident.C, Distanza.fin 0)] false = .ok t1 m1 ∧
      aggiorna_tabella nodoA0 Ident.B ([(Ident.C, Distanza.fin 0)] ++ (Ident.Z, Distanza.fin 0) :: [])
        = .keyError { nodoA0 with tabella := t1 } ∧
      t1.map Prod.fst = nodoA0.tabella.map Prod.fst :=
  C10_amended.1 nodoA0 Ident.B Ident.Z 1 (Distanza.fin 0) [(Ident.C, Distanza.fin 0)] []
    (by decide) (by decide) (by decide)

/-! ### Round-level lemmas: monotonicity and the zero-change fixed point -/

theorem entryDist_eq_some {S : Net V} {k : V} {n : Nodo V} (h : lookupL S k = some n)
    (d : V) : entryDist S k d = tDist n.tabella d := by
  unfold entryDist tDist
  rw [h]

theorem replace_id {α : Type} (l : List (V × α)) (k : V) (v : α)
    (h : k ∉ l.map Prod.fst) :
    l.map (fun p => if p.1 = k then (k, v) else p) = l := by
  induction l with
  | nil => rfl
  | cons p rest ih =>
    rw [List.map_cons, List.mem_cons] at h
    push_neg at h
    rw [List.map_cons, if_neg (fun hc => h.1 hc.symm), ih h.2]

theorem netSet_self {S : Net V} {v : V} {n : Nodo V}
    (hnd : (S.map Prod.fst).Nodup) (h : lookupL S v = some n) : netSet S v n = S := by
  induction S with
  | nil => cases h
  | cons p rest ih =>
    rw [List.map_cons, List.nodup_cons] at hnd
    rw [lookupL_cons] at h
    unfold netSet
    rw [List.map_cons]
    by_cases hp : p.1 = v
    · rw [if_pos hp] at h ⊢
      injection h with h
      have hvrest : v ∉ rest.map Prod.fst := by
        rw [← hp]
        exact hnd.1
      rw [replace_id rest v n hvrest]
      have hpn : p = (v, n) := by
        cases p
        simp_all
      rw [hpn]
    · rw [if_neg hp] at h ⊢
      have := ih hnd.2 h
      unfold netSet at this
      rw [this]

theorem deliver_mono {net net' : Net V} {nome v : V}
    {vec : List (V × Distanza)} {m : Nat}
    (h : deliver net nome vec v = .ok net' m) (k d : V) :
    Distanza.le (entryDist net' k d) (entryDist net k d) := by
  unfold deliver at h
  cases hv : lookupL net v with
  | none => rw [hv] at h; cases h
  | some nodo =>
    rw [hv] at h
    dsimp only at h
    cases ha : aggiorna_tabella nodo nome vec with
    | keyError n' => rw [ha] at h; cases h
    | ok n' mm =>
      rw [ha] at h
      injection h with h1 h2
      rw [← h1]
      by_cases hk : k = v
      · subst hk
        have e1 : entryDist (netSet net k n') k d = tDist n'.tabella d := by
          apply entryDist_eq_some
          rw [lookupL_netSet, if_pos rfl, hv]
          rfl
        have e2 : entryDist net k d = tDist nodo.tabella d := entryDist_eq_some hv d
        rw [e1, e2]
        have hm := aggiorna_mono nodo nome vec d
        rw [ha] at hm
        dsimp only [NUpdResult.nodo] at hm
        exact hm
      · have e1 : entryDist (netSet net v n') k d = entryDist net k d := by
          unfold entryDist
          rw [lookupL_netSet, if_neg hk]
        rw [e1]
        exact Distanza.le_refl _

theorem deliverAll_mono {nome : V} {vec : List (V × Distanza)} :
    ∀ {vs : List V} {net net' : Net V} {agg agg' : Nat},
      deliverAll nome vec net vs agg = .ok net' agg' →
      ∀ k d, Distanza.le (entryDist net' k d) (entryDist net k d) := by
  intro vs
  induction vs with
  | nil =>
    intro net net' agg agg' h k d
    cases h
    exact Distanza.le_refl _
  | cons v vs ih =>
    intro net net' agg agg' h k d
    rw [deliverAll] at h
    cases hd : deliver net nome vec v with
    | err e => rw [hd] at h; cases h
    | ok net1 m =>
      rw [hd] at h
      dsimp only at h
      exact Distanza.le_trans (ih h k d) (deliver_mono hd k d)

theorem senders_mono :
    ∀ {L : List (V × Nodo V)} {net net' : Net V} {agg agg' : Nat},
      senders L net agg = .ok net' agg' →
      ∀ k d, Distanza.le (entryDist net' k d) (entryDist net k d) := by
  intro L
  induction L with
  | nil =>
    intro net net' agg agg' h k d
    cases h
    exact Distanza.le_refl _
  | cons p L ih =>
    intro net net' agg agg' h k d
    obtain ⟨nome, nodo⟩ := p
    rw [senders] at h
    cases hd : deliverAll nome (invia_vettore nodo) net (nodo.vicini.map Prod.fst) agg with
    | err e => rw [hd] at h; cases h
    | ok net1 agg1 =>
      rw [hd] at h
      dsimp only at h
      exact Distanza.le_trans (ih h k d) (deliverAll_mono hd k d)

theorem round1_mono {S S' : Net V} {c : Nat} (h : round1 S = .ok S' c) (k d : V) :
    Distanza.le (entryDist S' k d) (entryDist S k d) := by
  unfold round1 at h
  exact senders_mono h k d

theorem Reaches_mono {S T : Net V} (h : Reaches S T) (k d : V) :
    Distanza.le (entryDist T k d) (entryDist S k d) := by
  induction h with
  | refl S => exact Distanza.le_refl _
  | step h1 h2 ih => exact Distanza.le_trans ih (round1_mono h1 k d)

theorem deliverAll_agg_le {nome : V} {vec : List (V × Distanza)} :
    ∀ {vs : List V} {net net' : Net V} {agg agg' : Nat},
      deliverAll nome vec net vs agg = .ok net' agg' → agg ≤ agg' := by
  intro vs
  induction vs with
  | nil =>
    intro net net' agg agg' h
    cases h
    exact Nat.le_refl _
  | cons v vs ih =>
    intro net net' agg agg' h
    rw [deliverAll] at h
    cases hd : deliver net nome vec v with
    | err e => rw [hd] at h; cases h
    | ok net1 m =>
      rw [hd] at h
      dsimp only at h
      exact Nat.le_trans (Nat.le_add_right agg m) (ih h)

theorem senders_agg_le :
    ∀ {L : List (V × Nodo V)} {net net' : Net V} {agg agg' : Nat},
      senders L net agg = .ok net' agg' → agg ≤ agg' := by
  intro L
  induction L with
  | nil =>
    intro net net' agg agg' h
    cases h
    exact Nat.le_refl _
  | cons p L ih =>
    intro net net' agg agg' h
    obtain ⟨nome, nodo⟩ := p
    rw [senders] at h
    cases hd : deliverAll nome (invia_vettore nodo) net (nodo.vicini.map Prod.fst) agg with
    | err e => rw [hd] at h; cases h
    | ok net1 agg1 =>
      rw [hd] at h
      dsimp only at h
      exact Nat.le_trans (deliverAll_agg_le hd) (ih h)

theorem deliverAll_zero {nome : V} {vec : List (V × Distanza)} :
    ∀ {vs : List V} {net net' : Net V} {agg : Nat},
      (net.map Prod.fst).Nodup →
      deliverAll nome vec net vs agg = .ok net' agg →
      net' = net ∧ ∀ v ∈ vs, ∃ nr, lookupL net v = some nr ∧
        aggiorna_tabella nr nome vec = .ok nr false := by
  intro vs
  induction vs with
  | nil =>
    intro net net' agg _ h
    cases h
    exact ⟨rfl, by simp⟩
  | cons v vs ih =>
    intro net net' agg hnd h
    rw [deliverAll] at h
    cases hd : deliver net nome vec v with
    | err e => rw [hd] at h; cases h
    | ok net1 m =>
      rw [hd] at h
      dsimp only at h
      have hm : m = 0 := by
        have h1 := deliverAll_agg_le h
        omega
      subst hm
      unfold deliver at hd
      cases hv : lookupL net v with
      | none => rw [hv] at hd; cases hd
      | some nodo =>
        rw [hv] at hd
        dsimp only at hd
        cases ha : aggiorna_tabella nodo nome vec with
        | keyError n' => rw [ha] at hd; cases hd
        | ok n' mm =>
          rw [ha] at hd
          injection hd with hd1 hd2
          have hmm : mm = false := by
            cases mm
            · rfl
            · simp at hd2
          subst hmm
          have hn' : n' = nodo := (aggiorna_false ha).1
          subst hn'
          have hnet1 : net1 = net := by
            rw [← hd1]
            exact netSet_self hnd hv
          subst hnet1
          obtain ⟨hrest, hfacts⟩ := ih hnd h
          refine ⟨hrest, ?_⟩
          intro u hu
          rcases List.mem_cons.mp hu with hu | hu
          · subst hu
            exact ⟨n', hv, ha⟩
          · exact hfacts u hu

theorem senders_zero :
    ∀ {L : List (V × Nodo V)} {net net' : Net V} {agg : Nat},
      (net.map Prod.fst).Nodup →
      senders L net agg = .ok net' agg →
      net' = net ∧ ∀ p ∈ L, ∀ v ∈ p.2.vicini.map Prod.fst,
        ∃ nr, lookupL net v = some nr ∧
          aggiorna_tabella nr p.1 (invia_vettore p.2) = .ok nr false := by
  intro L
  induction L with
  | nil =>
    intro net net' agg _ h
    cases h
    exact ⟨rfl, by simp⟩
  | cons p L ih =>
    intro net net' agg hnd h
    obtain ⟨nome, nodo⟩ := p
    rw [senders] at h
    cases hd : deliverAll nome (invia_vettore nodo) net (nodo.vicini.map Prod.fst) agg with
    | err e => rw [hd] at h; cases h
    | ok net1 agg1 =>
      rw [hd] at h
      dsimp only at h
      have hagg1 : agg1 = agg := by
        have h1 := deliverAll_agg_le hd
        have h2 := senders_agg_le h
        omega
      subst hagg1
      obtain ⟨hnet1, hfacts1⟩ := deliverAll_zero hnd hd
      subst hnet1
      obtain ⟨hnet, hfacts⟩ := ih hnd h
      refine ⟨hnet, ?_⟩
      intro q hq v hv
      rcases List.mem_cons.mp hq with hq | hq
      · subst hq
        exact hfacts1 v hv
      · exact hfacts q hq v hv

/-! ### Claim C6: monotonicity of stored distances -/

/-- C6: for every node and every destination, the stored distance is
non-increasing from each round to the next, over any run of completed
rounds. -/
theorem C6_monotonicity (S T : Net V) (h : Reaches S T) (k dest : V) :
    Distanza.le (entryDist T k dest) (entryDist S k dest) :=
  Reaches_mono h k dest

theorem round4_1L : round1 net4i = .ok net4r1L 6 := by decide

theorem round4_2L : round1 net4r1L = .ok net4r2L 2 := by decide

theorem round4_3L : round1 net4r2L = .ok net4r2L 0 := by decide

theorem reaches4 : Reaches net4i net4r2L :=
  Reaches.step round4_1L (Reaches.step round4_2L (Reaches.refl _))

theorem sim4_2 : simula nodi4 2 = .ok net4r2L [6, 2] := by decide

theorem sim4_3 : simula nodi4 3 = .ok net4r2L [6, 2, 0] := by decide

theorem sim4_10 : simula nodi4 10 = .ok net4r2L [6, 2, 0] := by decide

theorem sim4aux_10 : simulaAux net4i 10 = .ok net4r2L [6, 2, 0] := sim4_10

theorem net4fin_eq : net4fin = net4r2L := by
  unfold net4fin
  rw [sim4_10]

/-- C6 witness: distances never increase over the rounds of the `main`
run. -/
theorem C6_monotonicity_witness :
    Distanza.le (entryDist net4r2L Ident.A Ident.D) (entryDist net4i Ident.A Ident.D) :=
  C6_monotonicity _ _ reaches4 Ident.A Ident.D

/-! ### Claim C9: the zero-change state is a fixed point -/

/-- C9: if a full round from state `S` produces changed-count 0, the
state is unchanged and one more round from it again produces
changed-count 0 with all tables unchanged. -/
theorem C9_idempotent (S S' : Net V) (hnd : (S.map Prod.fst).Nodup)
    (h : round1 S = .ok S' 0) : S' = S ∧ round1 S' = .ok S' 0 := by
  unfold round1 at h
  obtain ⟨hS, _⟩ := senders_zero hnd h
  subst hS
  exact ⟨rfl, h⟩

/-- C9 witness: the converged state of the `main` run is a fixed point. -/
theorem C9_idempotent_witness :
    net4r2L = net4r2L ∧ round1 net4r2L = .ok net4r2L 0 :=
  C9_idempotent _ _ (by decide) round4_3L

/-! ### Claims C2 and C8: the shape of the round loop of `simula` -/

theorem getLast?_mem {l : List Nat} {a : Nat} (h : l.getLast? = some a) : a ∈ l := by
  induction l with
  | nil => cases h
  | cons x rest ih =>
    cases rest with
    | nil =>
      rw [List.getLast?_singleton] at h
      injection h with h
      rw [← h]
      exact List.mem_cons_self x []
    | cons y ys =>
      rw [List.getLast?_cons_cons] at h
      exact List.mem_cons_of_mem x (ih h)

theorem simulaAux_master :
    ∀ (max : Nat) (S T : Net V) (counts : List Nat),
      simulaAux S max = .ok T counts →
      counts.length ≤ max ∧
      (∀ c ∈ counts.dropLast, c ≠ 0) ∧
      ((counts.getLast? = some 0) ∨ (counts.length = max ∧ ∀ c ∈ counts, c ≠ 0)) := by
  intro max
  induction max with
  | zero =>
    intro S T counts h
    cases h
    exact ⟨Nat.le_refl 0, by simp, Or.inr ⟨rfl, by simp⟩⟩
  | succ k ih =>
    intro S T counts h
    rw [simulaAux] at h
    cases hr : round1 S with
    | err e => rw [hr] at h; cases h
    | ok net' agg =>
      rw [hr] at h
      dsimp only at h
      by_cases hz : agg = 0
      · rw [if_pos hz] at h
        injection h with h1 h2
        subst hz
        rw [← h2]
        refine ⟨Nat.succ_le_succ (Nat.zero_le k), by simp, Or.inl ?_⟩
        simp
      · rw [if_neg hz] at h
        cases hs : simulaAux net' k with
        | err e => rw [hs] at h; cases h
        | ok net'' counts'' =>
          rw [hs] at h
          injection h with h1 h2
          obtain ⟨hlen, hdrop, hlast⟩ := ih net' net'' counts'' hs
          rw [← h2]
          refine ⟨by simpa using Nat.succ_le_succ hlen, ?_, ?_⟩
          · intro c hc
            cases counts'' with
            | nil => simp at hc
            | cons c0 cs =>
              rw [List.dropLast_cons₂] at hc
              rcases List.mem_cons.mp hc with hc | hc
              · rw [hc]; exact hz
              · exact hdrop c hc
          · rcases hlast with hl | ⟨hlen2, hall⟩
            · cases counts'' with
              | nil => simp at hl
              | cons c0 cs =>
                left
                rw [List.getLast?_cons_cons]
                exact hl
            · right
              refine ⟨by rw [List.length_cons, hlen2], ?_⟩
              intro c hc
              rcases List.mem_cons.mp hc with hc | hc
              · rw [hc]; exact hz
              · exact hall c hc

/-- C8 counterexample: the isolated-node topology with `max_iter = 1`
converges in its very first round, so a round with changed-count 0
occurs although the loop does not stop strictly before the cap — it
executes exactly `max_iter` rounds. -/
theorem C8_counterexample :
    (simula netIsolato 1).counts = [0] ∧
    ¬ ((simula netIsolato 1).counts.length < 1) := by
  decide

/-- C8 (amended): the loop always terminates after at most `max_iter`
rounds; every executed round except the last has nonzero changed-count;
if the loop stops strictly before the cap, the last executed round has
changed-count 0 (a zero-change round can also coincide with round
`max_iter`, in which case exactly `max_iter` rounds execute). -/
theorem C8_termination (S T : Net V) (max : Nat) (counts : List Nat)
    (h : simulaAux S max = .ok T counts) :
    counts.length ≤ max ∧
    (∀ c ∈ counts.dropLast, c ≠ 0) ∧
    (counts.length < max → counts.getLast? = some 0) := by
  obtain ⟨hlen, hdrop, hlast⟩ := simulaAux_master max S T counts h
  refine ⟨hlen, hdrop, ?_⟩
  intro hlt
  rcases hlast with hl | ⟨heq, _⟩
  · exact hl
  · omega

/-- C8 witness: the `main` run executes 3 of the allowed 10 rounds. -/
theorem C8_termination_witness :
    ([6, 2, 0] : List Nat).length ≤ 10 ∧
    (∀ c ∈ ([6, 2, 0] : List Nat).dropLast, c ≠ 0) ∧
    (([6, 2, 0] : List Nat).length < 10 → ([6, 2, 0] : List Nat).getLast? = some 0) :=
  C8_termination _ _ 10 _ sim4aux_10

/-- C2 counterexample: running the `main` topology with `max_iter = 2`
hits the iteration cap with changes outstanding, while `max_iter = 3`
converges; yet the caller-visible outcome of `simula` — the mutated
`nodi` dict, the function returning `None` — is identical in the two
runs, so no distinct terminal status reaches the caller. -/
theorem C2_counterexample :
    simulaRet nodi4 2 = simulaRet nodi4 3 ∧
    (simula nodi4 3).counts.getLast? = some 0 ∧
    (simula nodi4 2).counts = [6, 2] ∧
    (simula nodi4 2).counts.length = 2 := by
  refine ⟨?_, ?_, ?_, ?_⟩
  · unfold simulaRet
    rw [sim4_2, sim4_3]
  · rw [sim4_3]
    rfl
  · rw [sim4_2]
    rfl
  · rw [sim4_2]
    rfl

/-- C2 (amended): a terminating run ends in exactly one of two terminal
conditions — a converged run, whose final executed round has
changed-count 0 (and hence not every executed count is nonzero), or a
capped run, which executes exactly `max_iter` rounds all with nonzero
changed-count; but this distinction is only visible in the per-round
counts (printed, in Python), not in anything `simula` returns. -/
theorem C2_terminal_outcomes (S T : Net V) (max : Nat) (counts : List Nat)
    (h : simulaAux S max = .ok T counts) :
    (counts.getLast? = some 0 ∧ ¬ (∀ c ∈ counts, c ≠ 0)) ∨
    ((∀ c ∈ counts, c ≠ 0) ∧ counts.length = max ∧ counts.getLast? ≠ some 0) := by
  obtain ⟨hlen, hdrop, hlast⟩ := simulaAux_master max S T counts h
  by_cases hc : counts.getLast? = some 0
  · left
    refine ⟨hc, ?_⟩
    intro hall
    exact hall 0 (getLast?_mem hc) rfl
  · right
    rcases hlast with hl | ⟨heq, hall⟩
    · exact absurd hl hc
    · exact ⟨hall, heq, hc⟩

/-- C2 witness: the converged `main` run falls in the converged terminal
condition. -/
theorem C2_terminal_outcomes_witness :
    ((([6, 2, 0] : List Nat).getLast? = some 0 ∧ ¬ (∀ c ∈ ([6, 2, 0] : List Nat), c ≠ 0)) ∨
    ((∀ c ∈ ([6, 2, 0] : List Nat), c ≠ 0) ∧ ([6, 2, 0] : List Nat).length = 10 ∧
      ([6, 2, 0] : List Nat).getLast? ≠ some 0)) :=
  C2_terminal_outcomes _ _ 10 _ sim4aux_10

/-! ### Claim C7: the self entry is never overwritten -/

theorem invia_nonneg {n : Nodo V}
    (h : ∀ q ∈ n.tabella, Distanza.le (Distanza.fin 0) q.2.2) :
    ∀ q ∈ invia_vettore n, Distanza.le (Distanza.fin 0) q.2 := by
  intro q hq
  unfold invia_vettore at hq
  rw [List.mem_map] at hq
  obtain ⟨p, hp, hpq⟩ := hq
  rw [← hpq]
  exact h p hp

theorem netSet_mem {T : Net V} {v : V} {n' : Nodo V} {q : V × Nodo V}
    (h : q ∈ netSet T v n') : q = (v, n') ∨ q ∈ T := by
  unfold netSet at h
  rw [List.mem_map] at h
  obtain ⟨p, hp, hq⟩ := h
  by_cases hpv : p.1 = v
  · rw [if_pos hpv] at hq
    left
    exact hq.symm
  · rw [if_neg hpv] at hq
    right
    rw [← hq]
    exact hp

theorem aggLoop_pres {c : Int} (s nome : V) (hc : 0 ≤ c) :
    ∀ (vec : List (V × Distanza)) (t : Table V) (m : Bool),
      (∀ q ∈ vec, Distanza.le (Distanza.fin 0) q.2) →
      lookupL t nome = some (some nome, Distanza.fin 0) →
      (∀ q ∈ t, Distanza.le (Distanza.fin 0) q.2.2) →
      lookupL (aggLoop c s t vec m).table nome = some (some nome, Distanza.fin 0) ∧
      (∀ q ∈ (aggLoop c s t vec m).table, Distanza.le (Distanza.fin 0) q.2.2) := by
  intro vec
  induction vec with
  | nil =>
    intro t m _ hself hnn
    exact ⟨hself, hnn⟩
  | cons q0 rest ih =>
    intro t m hvec hself hnn
    obtain ⟨dest, μ⟩ := q0
    have hμ : Distanza.le (Distanza.fin 0) μ := hvec (dest, μ) (List.mem_cons_self _ _)
    have hrestvec : ∀ q ∈ rest, Distanza.le (Distanza.fin 0) q.2 :=
      fun q hq => hvec q (List.mem_cons_of_mem _ hq)
    rw [aggLoop]
    cases hq : lookupL t dest with
    | none => exact ⟨hself, hnn⟩
    | some e =>
      dsimp only
      by_cases hlt : Distanza.lt (Distanza.addC c μ) e.2
      · rw [if_pos hlt]
        by_cases hdest : dest = nome
        · exfalso
          rw [hdest, hself] at hq
          injection hq with hq
          rw [← hq] at hlt
          exact Distanza.not_lt_zero hc hμ hlt
        · refine ih _ _ hrestvec ?_ ?_
          · rw [lookupL_dictSet, if_neg (fun hcon => hdest hcon.symm)]
            exact hself
          · intro q hq2
            rcases dictSet_mem hq2 with hq2 | hq2
            · rw [hq2]
              exact Distanza.addC_nonneg hc hμ
            · exact hnn q hq2
      · rw [if_neg hlt]
        exact ih _ _ hrestvec hself hnn

theorem aggiorna_pres {n : Nodo V} (s : V) (vec : List (V × Distanza))
    (hcost : ∀ q ∈ n.vicini, 0 ≤ q.2)
    (hvec : ∀ q ∈ vec, Distanza.le (Distanza.fin 0) q.2)
    (hself : lookupL n.tabella n.nome = some (some n.nome, Distanza.fin 0))
    (hnn : ∀ q ∈ n.tabella, Distanza.le (Distanza.fin 0) q.2.2) :
    lookupL ((aggiorna_tabella n s vec).nodo).tabella n.nome
      = some (some n.nome, Distanza.fin 0) ∧
    (∀ q ∈ ((aggiorna_tabella n s vec).nodo).tabella,
      Distanza.le (Distanza.fin 0) q.2.2) := by
  unfold aggiorna_tabella
  cases hcs : lookupL n.vicini s with
  | none => exact ⟨hself, hnn⟩
  | some c =>
    dsimp only
    have hc : 0 ≤ c := hcost (s, c) (lookupL_mem hcs)
    have hpres := aggLoop_pres s n.nome hc vec n.tabella false hvec hself hnn
    cases hl : aggLoop c s n.tabella vec false with
    | ok t m =>
      rw [hl] at hpres
      exact hpres
    | keyError t =>
      rw [hl] at hpres
      exact hpres

theorem deliver_pres {T T' : Net V} {nome v : V} {vec : List (V × Distanza)} {m : Nat}
    (hvec : ∀ q ∈ vec, Distanza.le (Distanza.fin 0) q.2)
    (hself : SelfZero T) (hnn : EntriesNonneg T) (hcost : CostsNonneg T)
    (h : deliver T nome vec v = .ok T' m) :
    SelfZero T' ∧ EntriesNonneg T' ∧ CostsNonneg T' := by
  unfold deliver at h
  cases hv : lookupL T v with
  | none => rw [hv] at h; cases h
  | some nodo =>
    rw [hv] at h
    dsimp only at h
    cases ha : aggiorna_tabella nodo nome vec with
    | keyError n' => rw [ha] at h; cases h
    | ok n' mm =>
      rw [ha] at h
      injection h with h1 h2
      rw [← h1]
      have hmem : (v, nodo) ∈ T := lookupL_mem hv
      have hupd := aggiorna_pres nome vec (hcost (v, nodo) hmem) hvec
        (hself (v, nodo) hmem) (hnn (v, nodo) hmem)
      rw [ha] at hupd
      dsimp only [NUpdResult.nodo] at hupd
      have hfields := aggiorna_nodo_fields nodo nome vec
      rw [ha] at hfields
      dsimp only [NUpdResult.nodo] at hfields
      refine ⟨?_, ?_, ?_⟩
      · intro q hq
        rcases netSet_mem hq with hq | hq
        · rw [hq]
          dsimp only
          rw [hfields.1]
          exact hupd.1
        · exact hself q hq
      · intro q hq
        rcases netSet_mem hq with hq | hq
        · rw [hq]
          exact hupd.2
        · exact hnn q hq
      · intro q hq
        rcases netSet_mem hq with hq | hq
        · rw [hq]
          dsimp only
          rw [hfields.2]
          exact hcost (v, nodo) hmem
        · exact hcost q hq

theorem deliverAll_pres {nome : V} {vec : List (V × Distanza)}
    (hvec : ∀ q ∈ vec, Distanza.le (Distanza.fin 0) q.2) :
    ∀ {vs : List V} {T T' : Net V} {agg agg' : Nat},
      SelfZero T → EntriesNonneg T → CostsNonneg T →
      deliverAll nome vec T vs agg = .ok T' agg' →
      SelfZero T' ∧ EntriesNonneg T' ∧ CostsNonneg T' := by
  intro vs
  induction vs with
  | nil =>
    intro T T' agg agg' hself hnn hcost h
    cases h
    exact ⟨hself, hnn, hcost⟩
  | cons v vs ih =>
    intro T T' agg agg' hself hnn hcost h
    rw [deliverAll] at h
    cases hd : deliver T nome vec v with
    | err e => rw [hd] at h; cases h
    | ok T1 m =>
      rw [hd] at h
      dsimp only at h
      obtain ⟨h1, h2, h3⟩ := deliver_pres hvec hself hnn hcost hd
      exact ih h1 h2 h3 h

theorem senders_pres :
    ∀ {L : List (V × Nodo V)} {T T' : Net V} {agg agg' : Nat},
      (∀ p ∈ L, ∀ q ∈ p.2.tabella, Distanza.le (Distanza.fin 0) q.2.2) →
      SelfZero T → EntriesNonneg T → CostsNonneg T →
      senders L T agg = .ok T' agg' →
      SelfZero T' ∧ EntriesNonneg T' ∧ CostsNonneg T' := by
  intro L
  induction L with
  | nil =>
    intro T T' agg agg' _ hself hnn hcost h
    cases h
    exact ⟨hself, hnn, hcost⟩
  | cons p L ih =>
    intro T T' agg agg' hL hself hnn hcost h
    obtain ⟨nome, nodo⟩ := p
    rw [senders] at h
    cases hd : deliverAll nome (invia_vettore nodo) T (nodo.vicini.map Prod.fst) agg with
    | err e => rw [hd] at h; cases h
    | ok T1 agg1 =>
      rw [hd] at h
      dsimp only at h
      have hvec : ∀ q ∈ invia_vettore nodo, Distanza.le (Distanza.fin 0) q.2 :=
        invia_nonneg (hL (nome, nodo) (List.mem_cons_self _ _))
      obtain ⟨h1, h2, h3⟩ := deliverAll_pres hvec hself hnn hcost hd
      exact ih (fun q hq => hL q (List.mem_cons_of_mem _ hq)) h1 h2 h3 h

theorem round1_pres {S S' : Net V} {agg : Nat}
    (hself : SelfZero S) (hnn : EntriesNonneg S) (hcost : CostsNonneg S)
    (h : round1 S = .ok S' agg) :
    SelfZero S' ∧ EntriesNonneg S' ∧ CostsNonneg S' := by
  unfold round1 at h
  exact senders_pres (fun p hp => hnn p hp) hself hnn hcost h

theorem Reaches_pres {S T : Net V} (h : Reaches S T)
    (hself : SelfZero S) (hnn : EntriesNonneg S) (hcost : CostsNonneg S) :
    SelfZero T ∧ EntriesNonneg T ∧ CostsNonneg T := by
  induction h with
  | refl S => exact ⟨hself, hnn, hcost⟩
  | step h1 h2 ih =>
    obtain ⟨a, b, c⟩ := round1_pres hself hnn hcost h1
    exact ih a b c

theorem foldInit_mem (n : Nodo V) :
    ∀ (tutti : List V) (t : Table V) (q : V × Entry V),
      q ∈ tutti.foldl (fun t x => dictSet t x (initEntry n x)) t →
      q ∈ t ∨ q.2 = initEntry n q.1 := by
  intro tutti
  induction tutti with
  | nil =>
    intro t q h
    exact Or.inl h
  | cons y rest ih =>
    intro t q h
    rw [List.foldl_cons] at h
    rcases ih _ q h with h2 | h2
    · rcases dictSet_mem h2 with h3 | h3
      · right
        rw [h3]
      · exact Or.inl h3
    · exact Or.inr h2

theorem initEntry_nonneg {n : Nodo V} (hcost : ∀ q ∈ n.vicini, 0 ≤ q.2) (x : V) :
    Distanza.le (Distanza.fin 0) (initEntry n x).2 := by
  unfold initEntry
  by_cases hx : x = n.nome
  · rw [if_pos hx]
    exact Int.le_refl 0
  · rw [if_neg hx]
    cases hv : lookupL n.vicini x with
    | none => trivial
    | some c =>
      dsimp only
      exact hcost (x, c) (lookupL_mem hv)

theorem initNet_mem {net : Net V} {p : V × Nodo V} (h : p ∈ initNet net) :
    ∃ q ∈ net, p = (q.1, inizializza_tabella q.2 (net.map Prod.fst)) := by
  unfold initNet at h
  rw [List.mem_map] at h
  obtain ⟨q, hq, hpq⟩ := h
  exact ⟨q, hq, hpq.symm⟩

theorem initNet_SelfZero {net : Net V} (hn : ∀ p ∈ net, p.2.nome = p.1) :
    SelfZero (initNet net) := by
  intro p hp
  obtain ⟨q, hq, hpq⟩ := initNet_mem hp
  rw [hpq]
  dsimp only
  have hnome : (inizializza_tabella q.2 (net.map Prod.fst)).nome = q.2.nome := rfl
  rw [hnome, inizializza_lookup]
  rw [if_pos (by rw [hn q hq]; exact List.mem_map_of_mem Prod.fst hq)]
  unfold initEntry
  rw [if_pos rfl]

theorem initNet_EntriesNonneg {net : Net V} (hcost : CostsNonneg net) :
    EntriesNonneg (initNet net) := by
  intro p hp q hq
  obtain ⟨r, hr, hpr⟩ := initNet_mem hp
  rw [hpr] at hq
  dsimp only at hq
  unfold inizializza_tabella at hq
  dsimp only at hq
  rcases foldInit_mem r.2 (net.map Prod.fst) [] q hq with h | h
  · simp at h
  · rw [h]
    exact initEntry_nonneg (fun s hs => hcost r hr s hs) q.1

theorem initNet_CostsNonneg {net : Net V} (hcost : CostsNonneg net) :
    CostsNonneg (initNet net) := by
  intro p hp q hq
  obtain ⟨r, hr, hpr⟩ := initNet_mem hp
  rw [hpr] at hq
  dsimp only at hq
  exact hcost r hr q hq

/-- C7: given that all link costs are non-negative (and that dict keys
name their nodes, as `main` builds them), every node's entry for its own
identity is `(self, 0)` immediately after initialization and after every
completed round: no update ever overwrites it, since no candidate
`cost + sender_distance` can be strictly below 0. -/
theorem C7_self_entry (net : Net V)
    (hn : ∀ p ∈ net, p.2.nome = p.1)
    (hcost : CostsNonneg net) :
    SelfZero (initNet net) ∧ (∀ S, Reaches (initNet net) S → SelfZero S) := by
  have h1 := initNet_SelfZero hn
  have h2 := initNet_EntriesNonneg hcost
  have h3 := initNet_CostsNonneg hcost
  exact ⟨h1, fun S hS => (Reaches_pres hS h1 h2 h3).1⟩

/-- C7 witness: the converged state of the `main` run keeps every self
entry at `(self, 0)`. -/
theorem C7_self_entry_witness : SelfZero net4r2L :=
  (C7_self_entry nodi4 (by decide) (by unfold CostsNonneg; decide)).2 net4r2L reaches4

/-! ### Claim C5: the snapshot round equals a double-buffered round -/

theorem deliver_keys {T T' : Net V} {nome v : V} {vec : List (V × Distanza)} {m : Nat}
    (h : deliver T nome vec v = .ok T' m) : T'.map Prod.fst = T.map Prod.fst := by
  unfold deliver at h
  cases hv : lookupL T v with
  | none => rw [hv] at h; cases h
  | some nodo =>
    rw [hv] at h
    dsimp only at h
    cases ha : aggiorna_tabella nodo nome vec with
    | keyError n' => rw [ha] at h; cases h
    | ok n' mm =>
      rw [ha] at h
      injection h with h1 h2
      rw [← h1]
      exact netSet_map_fst T v n'

theorem deliverAll_keys {nome : V} {vec : List (V × Distanza)} :
    ∀ {vs : List V} {T T' : Net V} {agg agg' : Nat},
      deliverAll nome vec T vs agg = .ok T' agg' →
      T'.map Prod.fst = T.map Prod.fst := by
  intro vs
  induction vs with
  | nil =>
    intro T T' agg agg' h
    cases h
    rfl
  | cons v vs ih =>
    intro T T' agg agg' h
    rw [deliverAll] at h
    cases hd : deliver T nome vec v with
    | err e => rw [hd] at h; cases h
    | ok T1 m =>
      rw [hd] at h
      dsimp only at h
      rw [ih h, deliver_keys hd]

theorem senders_keys :
    ∀ {L : List (V × Nodo V)} {T T' : Net V} {agg agg' : Nat},
      senders L T agg = .ok T' agg' → T'.map Prod.fst = T.map Prod.fst := by
  intro L
  induction L with
  | nil =>
    intro T T' agg agg' h
    cases h
    rfl
  | cons p L ih =>
    intro T T' agg agg' h
    obtain ⟨nome, nodo⟩ := p
    rw [senders] at h
    cases hd : deliverAll nome (invia_vettore nodo) T (nodo.vicini.map Prod.fst) agg with
    | err e => rw [hd] at h; cases h
    | ok T1 agg1 =>
      rw [hd] at h
      dsimp only at h
      rw [ih h, deliverAll_keys hd]

theorem round1_keys {S S' : Net V} {c : Nat} (h : round1 S = .ok S' c) :
    S'.map Prod.fst = S.map Prod.fst := by
  unfold round1 at h
  exact senders_keys h

theorem deliverAll_lookup {nome : V} {vec : List (V × Distanza)} :
    ∀ {vs : List V} {T T' : Net V} {agg agg' : Nat},
      vs.Nodup →
      deliverAll nome vec T vs agg = .ok T' agg' →
      (∀ w, w ∉ vs → lookupL T' w = lookupL T w) ∧
      (∀ w ∈ vs, ∃ n n' m, lookupL T w = some n ∧
        aggiorna_tabella n nome vec = .ok n' m ∧ lookupL T' w = some n') := by
  intro vs
  induction vs with
  | nil =>
    intro T T' agg agg' _ h
    cases h
    exact ⟨fun w _ => rfl, by simp⟩
  | cons v vs ih =>
    intro T T' agg agg' hnd h
    rw [List.nodup_cons] at hnd
    rw [deliverAll] at h
    cases hd : deliver T nome vec v with
    | err e => rw [hd] at h; cases h
    | ok T1 m0 =>
      rw [hd] at h
      dsimp only at h
      unfold deliver at hd
      cases hv : lookupL T v with
      | none => rw [hv] at hd; cases hd
      | some nodo =>
        rw [hv] at hd
        dsimp only at hd
        cases ha : aggiorna_tabella nodo nome vec with
        | keyError n' => rw [ha] at hd; cases hd
        | ok n' mm =>
          rw [ha] at hd
          injection hd with hd1 hd2
          obtain ⟨habs, hpres⟩ := ih hnd.2 h
          refine ⟨?_, ?_⟩
          · intro w hw
            rw [List.mem_cons] at hw
            push_neg at hw
            rw [habs w hw.2, ← hd1, lookupL_netSet, if_neg hw.1]
          · intro w hw
            rcases List.mem_cons.mp hw with hw | hw
            · subst hw
              refine ⟨nodo, n', mm, hv, ha, ?_⟩
              rw [habs w hnd.1, ← hd1, lookupL_netSet, if_pos rfl, hv]
              rfl
            · have hwv : w ≠ v := by
                intro hc
                rw [hc] at hw
                exact hnd.1 hw
              obtain ⟨n1, n1', m1, hT1, ha1, hT'⟩ := hpres w hw
              rw [← hd1, lookupL_netSet, if_neg hwv] at hT1
              exact ⟨n1, n1', m1, hT1, ha1, hT'⟩

theorem deliveriesTo_cons (p : V × Nodo V) (L : List (V × Nodo V)) (w : V) :
    deliveriesTo (p :: L) w =
      if (lookupL p.2.vicini w).isSome then (p.1, invia_vettore p.2) :: deliveriesTo L w
      else deliveriesTo L w := by
  unfold deliveriesTo
  rw [List.filter_cons]
  by_cases hw : (lookupL p.2.vicini w).isSome
  · rw [if_pos (by rw [hw]), if_pos hw]
    rfl
  · rw [if_neg (by simpa using hw), if_neg hw]

theorem senders_lookup :
    ∀ {L : List (V × Nodo V)} {T T' : Net V} {agg agg' : Nat},
      (∀ p ∈ L, (p.2.vicini.map Prod.fst).Nodup) →
      senders L T agg = .ok T' agg' →
      ∀ w, (∀ n, lookupL T w = some n →
          ∃ n', applyIncoming n (deliveriesTo L w) = some n' ∧ lookupL T' w = some n') ∧
        (lookupL T w = none → lookupL T' w = none) := by
  intro L
  induction L with
  | nil =>
    intro T T' agg agg' _ h w
    cases h
    exact ⟨fun n hn => ⟨n, rfl, hn⟩, fun hn => hn⟩
  | cons p L ih =>
    intro T T' agg agg' hvic h w
    obtain ⟨nome, nodo⟩ := p
    rw [senders] at h
    cases hd : deliverAll nome (invia_vettore nodo) T (nodo.vicini.map Prod.fst) agg with
    | err e => rw [hd] at h; cases h
    | ok T1 agg1 =>
      rw [hd] at h
      dsimp only at h
      obtain ⟨habs, hpres⟩ :=
        deliverAll_lookup (hvic (nome, nodo) (List.mem_cons_self _ _)) hd
      have ihw := ih (fun q hq => hvic q (List.mem_cons_of_mem _ hq)) h w
      rw [deliveriesTo_cons]
      by_cases hmem : (lookupL nodo.vicini w).isSome
      · rw [if_pos hmem]
        have hwvs : w ∈ nodo.vicini.map Prod.fst := lookupL_isSome.mp hmem
        obtain ⟨n0, n0', m0, hT, ha, hT1⟩ := hpres w hwvs
        constructor
        · intro n hn
          rw [hT] at hn
          injection hn with hn
          rw [← hn]
          dsimp only [applyIncoming]
          rw [ha]
          exact (ihw.1 n0' hT1)
        · intro hn
          rw [hn] at hT
          cases hT
      · rw [if_neg hmem]
        have habs2 : lookupL T1 w = lookupL T w :=
          habs w (fun hc => hmem (lookupL_isSome.mpr hc))
        constructor
        · intro n hn
          exact ihw.1 n (by rw [habs2, hn])
        · intro hn
          exact ihw.2 (by rw [habs2, hn])

theorem lookupL_ext {α : Type} :
    ∀ {l1 l2 : List (V × α)},
      l1.map Prod.fst = l2.map Prod.fst →
      (l1.map Prod.fst).Nodup →
      (∀ k, lookupL l1 k = lookupL l2 k) →
      l1 = l2 := by
  intro l1
  induction l1 with
  | nil =>
    intro l2 hk _ _
    cases l2 with
    | nil => rfl
    | cons q r2 => cases hk
  | cons p r1 ih =>
    intro l2 hk hnd hl
    cases l2 with
    | nil => cases hk
    | cons q r2 =>
      rw [List.map_cons, List.map_cons] at hk
      injection hk with hk1 hk2
      rw [List.map_cons, List.nodup_cons] at hnd
      have hv : p.2 = q.2 := by
        have := hl p.1
        rw [lookupL_cons, lookupL_cons, if_pos rfl, if_pos hk1.symm] at this
        exact Option.some.inj this
      have hpq : p = q := by
        cases p
        cases q
        simp_all
      rw [hpq]
      rw [hpq] at hnd hk1
      refine congrArg (q :: ·) (ih hk2 hnd.2 ?_)
      intro k
      by_cases hkq : k = q.1
      · rw [hkq]
        rw [lookupL_eq_none.mpr hnd.1,
          lookupL_eq_none.mpr (show q.1 ∉ r2.map Prod.fst by rw [← hk2]; exact hnd.1)]
      · have hthis := hl k
        rw [lookupL_cons, lookupL_cons, hpq] at hthis
        rw [if_neg (fun hc => hkq hc.symm), if_neg (fun hc => hkq hc.symm)] at hthis
        exact hthis

theorem doubleBufferedAux_build (S : Net V) :
    ∀ (rest : List (V × Nodo V)) (f : V → Nodo V),
      (∀ p ∈ rest, applyIncoming p.2 (deliveriesTo S p.1) = some (f p.1)) →
      doubleBufferedAux S rest = some (rest.map (fun p => (p.1, f p.1))) := by
  intro rest
  induction rest with
  | nil =>
    intro f _
    rfl
  | cons p rest ih =>
    intro f hall
    rw [doubleBufferedAux]
    rw [hall p (List.mem_cons_self _ _)]
    rw [ih f (fun q hq => hall q (List.mem_cons_of_mem _ hq))]
    rfl

theorem lookupL_map_key {α : Type} (l : List (V × α)) (f : V → α) (k : V) :
    lookupL (l.map (fun p => (p.1, f p.1))) k = (lookupL l k).map (fun _ => f k) := by
  induction l with
  | nil => rfl
  | cons p rest ih =>
    rw [List.map_cons, lookupL_cons, lookupL_cons]
    by_cases hpk : p.1 = k
    · rw [if_pos hpk, if_pos hpk, hpk]
      rfl
    · rw [if_neg hpk, if_neg hpk, ih]

/-- C5: on a well-formed dict (unique node keys, unique neighbour keys),
the in-place round over the deep-copied snapshot computes exactly the
double-buffered synchronous round in which every delivered vector is the
export of the sender's round-start table and every new table is computed
purely from the prior round's tables. -/
theorem C5_double_buffered (S S' : Net V) (c : Nat)
    (hnd : (S.map Prod.fst).Nodup)
    (hvic : ∀ p ∈ S, (p.2.vicini.map Prod.fst).Nodup)
    (h : round1 S = .ok S' c) :
    doubleBufferedRound S = some S' := by
  have hkeys : S'.map Prod.fst = S.map Prod.fst := round1_keys h
  unfold round1 at h
  have hlook := senders_lookup hvic h
  have hchoice : ∀ p ∈ S, ∃ n', applyIncoming p.2 (deliveriesTo S p.1) = some n' ∧
      lookupL S' p.1 = some n' := by
    intro p hp
    exact (hlook p.1).1 p.2 (lookupL_of_mem_nodup hnd hp)
  have hbuild := doubleBufferedAux_build S S
    (fun w => (lookupL S' w).getD ⟨w, [], []⟩) ?_
  · unfold doubleBufferedRound
    rw [hbuild]
    refine congrArg some (lookupL_ext ?_ ?_ ?_)
    · rw [List.map_map]
      rw [hkeys]
      rfl
    · rw [List.map_map]
      exact hnd
    · intro k
      have hmk := lookupL_map_key S (fun w => (lookupL S' w).getD ⟨w, [], []⟩) k
      refine hmk.trans ?_
      cases hk : lookupL S k with
      | none =>
        show (none : Option (Nodo V)) = lookupL S' k
        symm
        rw [lookupL_eq_none, hkeys]
        exact lookupL_eq_none.mp hk
      | some n =>
        obtain ⟨n', h1, h2⟩ := hchoice (k, n) (lookupL_mem hk)
        show some ((lookupL S' k).getD ⟨k, [], []⟩) = lookupL S' k
        rw [h2]
        rfl
  · intro p hp
    obtain ⟨n', h1, h2⟩ := hchoice p hp
    rw [h1]
    show some n' = some ((lookupL S' p.1).getD ⟨p.1, [], []⟩)
    rw [h2]
    rfl

/-- C5 witness: the first round of the `main` run agrees with the
double-buffered round. -/
theorem C5_double_buffered_witness : doubleBufferedRound net4i = some net4r1L :=
  C5_double_buffered _ _ 6 (by decide) (by decide) round4_1L

/-! ### Claim C1: the reached fixed point is the all-pairs shortest-path solution -/

theorem PathW_nonneg {A : Adj V} (hA : AdjNonneg A) {u v : V} {w : Int}
    (h : PathW A u v w) : 0 ≤ w := by
  induction h with
  | nil u hu => exact Int.le_refl 0
  | cons he p ih =>
    have := hA _ _ _ he
    omega

theorem PathW_src_mem {A : Adj V} {u v : V} {w : Int} (h : PathW A u v w) :
    u ∈ adjNames A := by
  cases h with
  | nil u hu => exact hu
  | cons he p =>
    unfold edgeC at he
    unfold adjNames
    rw [← lookupL_isSome]
    cases hl : lookupL A u with
    | none => rw [hl] at he; cases he
    | some l => rfl

theorem PathW_dst_mem {A : Adj V} {u v : V} {w : Int} (h : PathW A u v w) :
    v ∈ adjNames A := by
  induction h with
  | nil u hu => exact hu
  | cons he p ih => exact ih

theorem adjNonneg_of_costs {A : Adj V} (h : ∀ p ∈ A, ∀ q ∈ p.2, 0 ≤ q.2) :
    AdjNonneg A := by
  intro u v c he
  unfold edgeC at he
  cases hl : lookupL A u with
  | none => rw [hl] at he; cases he
  | some l =>
    rw [hl] at he
    dsimp only [Option.bind] at he
    exact h (u, l) (lookupL_mem hl) (v, c) (lookupL_mem he)

theorem edgeC_isSome_mem {A : Adj V} {u v : V} (h : (edgeC A u v).isSome) :
    u ∈ adjNames A := by
  unfold edgeC at h
  unfold adjNames
  rw [← lookupL_isSome]
  cases hl : lookupL A u with
  | none => rw [hl] at h; cases h
  | some l => rfl

theorem AdjAgrees.names {A : Adj V} {S : Net V} (h : AdjAgrees A S) (u : V) :
    u ∈ S.map Prod.fst ↔ u ∈ adjNames A := by
  rw [← lookupL_isSome]
  unfold adjNames
  rw [← lookupL_isSome, ← h u]
  cases lookupL S u <;> simp

theorem AdjAgrees.edge {A : Adj V} {S : Net V} (h : AdjAgrees A S) {u : V} {n : Nodo V}
    (hu : lookupL S u = some n) (v : V) : edgeC A u v = lookupL n.vicini v := by
  unfold edgeC
  rw [← h u, hu]
  rfl

theorem VecGood_of_invia {A : Adj V} {S : Net V}
    (hAg : AdjAgrees A S) (hinv : InvNet A S)
    {p : V × Nodo V} (hp : p ∈ S) :
    VecGood A p.1 (invia_vettore p.2) := by
  intro q hq w hw
  unfold invia_vettore at hq
  rw [List.mem_map] at hq
  obtain ⟨r, hr, hrq⟩ := hq
  have hgood := hinv p hp r hr
  have hq1 : q.1 = r.1 := by rw [← hrq]
  by_cases hcase : r.1 = p.1
  · have he := hgood.1 hcase
    rw [hq1, hcase]
    have hw0 : w = 0 := by
      rw [← hrq] at hw
      dsimp only at hw
      rw [he] at hw
      injection hw with hw
      omega
    rw [hw0]
    refine PathW.nil p.1 ?_
    rw [← (hAg.names p.1)]
    exact List.mem_map_of_mem Prod.fst hp
  · have hq2 : r.2.2 = Distanza.fin w := by
      rw [← hrq] at hw
      exact hw
    obtain ⟨hop, c, w2, he1, he2, hpath, hsum⟩ := hgood.2 hcase w hq2
    rw [hq1, hsum]
    exact PathW.cons he2 hpath

theorem aggLoop_TableInv {A : Adj V} (hA : AdjNonneg A) (u s : V) (c : Int)
    (hedge : edgeC A u s = some c) :
    ∀ (vec : List (V × Distanza)) (t : Table V) (m : Bool),
      VecGood A s vec → TableInv A u t →
      TableInv A u (aggLoop c s t vec m).table := by
  intro vec
  induction vec with
  | nil =>
    intro t m _ ht
    exact ht
  | cons q0 rest ih =>
    intro t m hvec ht
    obtain ⟨dest, μ⟩ := q0
    have hvrest : VecGood A s rest := fun q hq w hw => hvec q (List.mem_cons_of_mem _ hq) w hw
    have hvhead : ∀ w, μ = Distanza.fin w → PathW A s dest w :=
      fun w hw => hvec (dest, μ) (List.mem_cons_self _ _) w hw
    rw [aggLoop]
    cases hq : lookupL t dest with
    | none => exact ht
    | some e =>
      dsimp only
      by_cases hlt : Distanza.lt (Distanza.addC c μ) e.2
      · rw [if_pos hlt]
        by_cases hdu : dest = u
        · exfalso
          have hgood := ht (dest, e) (lookupL_mem hq)
          have he : e = (some u, Distanza.fin 0) := hgood.1 hdu
          have hc0 : 0 ≤ c := hA u s c hedge
          have hμ : Distanza.le (Distanza.fin 0) μ := by
            cases μ with
            | inf => trivial
            | fin wμ =>
              have hw := PathW_nonneg hA (hvhead wμ rfl)
              show (0 : Int) ≤ wμ
              exact hw
          have hnot := Distanza.not_lt_zero hc0 hμ
          rw [he] at hlt
          exact hnot hlt
        · apply ih _ _ hvrest
          intro r hr
          rcases dictSet_mem hr with hr | hr
          · rw [hr]
            constructor
            · intro hcon
              exact absurd hcon hdu
            · intro _ w hw
              cases μ with
              | inf => simp [Distanza.addC] at hw
              | fin wμ =>
                have hweq : w = c + wμ := by
                  simp only [Distanza.addC] at hw
                  injection hw with hw
                  omega
                exact ⟨s, c, wμ, rfl, hedge, hvhead wμ rfl, hweq⟩
          · exact ht r hr
      · rw [if_neg hlt]
        exact ih _ _ hvrest ht

theorem aggiorna_TableInv {A : Adj V} (hA : AdjNonneg A) {u s : V} {n : Nodo V}
    (hAu : lookupL A u = some n.vicini)
    (vec : List (V × Distanza)) (hvec : VecGood A s vec) (ht : TableInv A u n.tabella) :
    TableInv A u ((aggiorna_tabella n s vec).nodo).tabella := by
  unfold aggiorna_tabella
  cases hcs : lookupL n.vicini s with
  | none => exact ht
  | some c =>
    dsimp only
    have hedge : edgeC A u s = some c := by
      unfold edgeC
      rw [hAu]
      exact hcs
    have h := aggLoop_TableInv hA u s c hedge vec n.tabella false hvec ht
    cases hl : aggLoop c s n.tabella vec false with
    | ok t m =>
      rw [hl] at h
      exact h
    | keyError t =>
      rw [hl] at h
      exact h

theorem deliver_C1 {A : Adj V} {N : List V} (hA : AdjNonneg A)
    {T T' : Net V} {nome v : V} {vec : List (V × Distanza)} {m : Nat}
    (hvec : VecGood A nome vec)
    (hkeys : T.map Prod.fst = N) (hAg : AdjAgrees A T)
    (htk : TabKeys N T) (hinv : InvNet A T)
    (h : deliver T nome vec v = .ok T' m) :
    T'.map Prod.fst = N ∧ AdjAgrees A T' ∧ TabKeys N T' ∧ InvNet A T' := by
  unfold deliver at h
  cases hv : lookupL T v with
  | none => rw [hv] at h; cases h
  | some nodo =>
    rw [hv] at h
    dsimp only at h
    cases ha : aggiorna_tabella nodo nome vec with
    | keyError n' => rw [ha] at h; cases h
    | ok n' mm =>
      rw [ha] at h
      injection h with h1 h2
      rw [← h1]
      have hmem : (v, nodo) ∈ T := lookupL_mem hv
      have hfields := aggiorna_nodo_fields nodo nome vec
      rw [ha] at hfields
      dsimp only [NUpdResult.nodo] at hfields
      have htab := aggiorna_keys nodo nome vec
      rw [ha] at htab
      dsimp only [NUpdResult.nodo] at htab
      have hAu : lookupL A v = some nodo.vicini := by
        rw [← hAg v, hv]
        rfl
      have hti := aggiorna_TableInv hA hAu vec hvec (hinv (v, nodo) hmem)
      rw [ha] at hti
      dsimp only [NUpdResult.nodo] at hti
      refine ⟨?_, ?_, ?_, ?_⟩
      · rw [netSet_map_fst]
        exact hkeys
      · intro u
        rw [lookupL_netSet]
        by_cases huv : u = v
        · rw [if_pos huv, huv, hv]
          show some n'.vicini = lookupL A v
          rw [hfields.2, hAu]
        · rw [if_neg huv]
          exact hAg u
      · intro p hp x
        rcases netSet_mem hp with hp | hp
        · rw [hp]
          show x ∈ n'.tabella.map Prod.fst ↔ x ∈ N
          rw [htab]
          exact htk (v, nodo) hmem x
        · exact htk p hp x
      · intro p hp
        rcases netSet_mem hp with hp | hp
        · rw [hp]
          exact hti
        · exact hinv p hp

theorem deliverAll_C1 {A : Adj V} {N : List V} (hA : AdjNonneg A)
    {nome : V} {vec : List (V × Distanza)} (hvec : VecGood A nome vec) :
    ∀ {vs : List V} {T T' : Net V} {agg agg' : Nat},
      T.map Prod.fst = N → AdjAgrees A T → TabKeys N T → InvNet A T →
      deliverAll nome vec T vs agg = .ok T' agg' →
      T'.map Prod.fst = N ∧ AdjAgrees A T' ∧ TabKeys N T' ∧ InvNet A T' := by
  intro vs
  induction vs with
  | nil =>
    intro T T' agg agg' h1 h2 h3 h4 h
    cases h
    exact ⟨h1, h2, h3, h4⟩
  | cons v vs ih =>
    intro T T' agg agg' h1 h2 h3 h4 h
    rw [deliverAll] at h
    cases hd : deliver T nome vec v with
    | err e => rw [hd] at h; cases h
    | ok T1 m =>
      rw [hd] at h
      dsimp only at h
      obtain ⟨g1, g2, g3, g4⟩ := deliver_C1 hA hvec h1 h2 h3 h4 hd
      exact ih g1 g2 g3 g4 h

theorem senders_C1 {A : Adj V} {N : List V} (hA : AdjNonneg A) {S0 : Net V}
    (hAg0 : AdjAgrees A S0) (hinv0 : InvNet A S0) :
    ∀ {L : List (V × Nodo V)} {T T' : Net V} {agg agg' : Nat},
      (∀ p ∈ L, p ∈ S0) →
      T.map Prod.fst = N → AdjAgrees A T → TabKeys N T → InvNet A T →
      senders L T agg = .ok T' agg' →
      T'.map Prod.fst = N ∧ AdjAgrees A T' ∧ TabKeys N T' ∧ InvNet A T' := by
  intro L
  induction L with
  | nil =>
    intro T T' agg agg' _ h1 h2 h3 h4 h
    cases h
    exact ⟨h1, h2, h3, h4⟩
  | cons p L ih =>
    intro T T' agg agg' hsub h1 h2 h3 h4 h
    obtain ⟨nome, nodo⟩ := p
    rw [senders] at h
    cases hd : deliverAll nome (invia_vettore nodo) T (nodo.vicini.map Prod.fst) agg with
    | err e => rw [hd] at h; cases h
    | ok T1 agg1 =>
      rw [hd] at h
      dsimp only at h
      have hvec : VecGood A nome (invia_vettore nodo) :=
        VecGood_of_invia hAg0 hinv0 (hsub (nome, nodo) (List.mem_cons_self _ _))
      obtain ⟨g1, g2, g3, g4⟩ := deliverAll_C1 hA hvec h1 h2 h3 h4 hd
      exact ih (fun q hq => hsub q (List.mem_cons_of_mem _ hq)) g1 g2 g3 g4 h

theorem round1_C1 {A : Adj V} {N : List V} (hA : AdjNonneg A) {S S' : Net V} {c : Nat}
    (h1 : S.map Prod.fst = N) (h2 : AdjAgrees A S) (h3 : TabKeys N S) (h4 : InvNet A S)
    (h : round1 S = .ok S' c) :
    S'.map Prod.fst = N ∧ AdjAgrees A S' ∧ TabKeys N S' ∧ InvNet A S' := by
  unfold round1 at h
  exact senders_C1 hA h2 h4 (fun p hp => hp) h1 h2 h3 h4 h

theorem Reaches_C1 {A : Adj V} {N : List V} (hA : AdjNonneg A) {S T : Net V}
    (h : Reaches S T)
    (h1 : S.map Prod.fst = N) (h2 : AdjAgrees A S) (h3 : TabKeys N S) (h4 : InvNet A S) :
    T.map Prod.fst = N ∧ AdjAgrees A T ∧ TabKeys N T ∧ InvNet A T := by
  induction h with
  | refl S => exact ⟨h1, h2, h3, h4⟩
  | step hr h2' ih =>
    obtain ⟨g1, g2, g3, g4⟩ := round1_C1 hA h1 h2 h3 h4 hr
    exact ih g1 g2 g3 g4

theorem initNet_keys (net : Net V) : (initNet net).map Prod.fst = net.map Prod.fst := by
  unfold initNet
  rw [List.map_map]
  rfl

theorem adjOf_names (S : Net V) : adjNames (adjOf S) = S.map Prod.fst := by
  unfold adjNames adjOf
  rw [List.map_map]
  rfl

theorem lookupL_adjOf (S : Net V) (u : V) :
    lookupL (adjOf S) u = (lookupL S u).map Nodo.vicini := by
  unfold adjOf
  exact lookupL_map_val Nodo.vicini S u

theorem initNet_AdjAgrees (net : Net V) : AdjAgrees (adjOf net) (initNet net) := by
  intro u
  rw [lookupL_adjOf]
  unfold initNet
  rw [lookupL_map_val (fun n => inizializza_tabella n (net.map Prod.fst)) net u]
  cases lookupL net u with
  | none => rfl
  | some n => rfl

theorem initNet_TabKeys (net : Net V) : TabKeys (net.map Prod.fst) (initNet net) := by
  intro p hp x
  obtain ⟨q, hq, hpq⟩ := initNet_mem hp
  rw [hpq]
  show x ∈ (inizializza_tabella q.2 (net.map Prod.fst)).tabella.map Prod.fst ↔ _
  unfold inizializza_tabella
  dsimp only
  rw [foldInit_keys_mem]
  simp

theorem initNet_InvNet (net : Net V)
    (hnd : (net.map Prod.fst).Nodup)
    (hn : ∀ p ∈ net, p.2.nome = p.1)
    (hclosed : AdjClosed (adjOf net)) :
    InvNet (adjOf net) (initNet net) := by
  intro p hp q hq
  obtain ⟨r, hr, hpr⟩ := initNet_mem hp
  rw [hpr] at hq
  dsimp only at hq
  unfold inizializza_tabella at hq
  dsimp only at hq
  rcases foldInit_mem r.2 (net.map Prod.fst) [] q hq with hq | hq
  · simp at hq
  · have hp1 : p.1 = r.1 := by rw [hpr]
    rw [hp1, hq]
    unfold initEntry
    have hnome : r.2.nome = r.1 := hn r hr
    by_cases hcase : q.1 = r.2.nome
    · rw [if_pos hcase]
      constructor
      · intro _
        rw [hnome]
      · intro hne w hw
        exact absurd (hcase.trans hnome) hne
    · rw [if_neg hcase]
      cases hv : lookupL r.2.vicini q.1 with
      | none =>
        constructor
        · intro hcon
          exact absurd (by rw [hcon, ← hnome]) hcase
        · intro _ w hw
          simp at hw
      | some cx =>
        constructor
        · intro hcon
          exact absurd (by rw [hcon, ← hnome]) hcase
        · intro hne w hw
          have hwcx : w = cx := by
            dsimp only at hw
            injection hw with hw
            omega
          refine ⟨q.1, cx, 0, rfl, ?_, ?_, by omega⟩
          · unfold edgeC
            rw [lookupL_adjOf]
            have hlr : lookupL net r.1 = some r.2 := lookupL_of_mem_nodup hnd hr
            rw [hlr]
            exact hv
          · refine PathW.nil q.1 ?_
            exact hclosed (r.1, r.2.vicini)
              (List.mem_map_of_mem (fun p => (p.1, p.2.vicini)) hr)
              (q.1, cx) (lookupL_mem hv)

theorem Reaches_keys {S T : Net V} (h : Reaches S T) :
    T.map Prod.fst = S.map Prod.fst := by
  induction h with
  | refl S => rfl
  | step h1 h2 ih => rw [ih, round1_keys h1]

theorem tDist_eq {t : Table V} {d : V} {e : Entry V} (h : lookupL t d = some e) :
    tDist t d = e.2 := by
  unfold tDist
  rw [h]

theorem tDist_fin_inv {t : Table V} {d : V} {w : Int} (h : tDist t d = Distanza.fin w) :
    ∃ e, lookupL t d = some e ∧ e.2 = Distanza.fin w := by
  unfold tDist at h
  cases hl : lookupL t d with
  | none => rw [hl] at h; cases h
  | some e =>
    rw [hl] at h
    exact ⟨e, rfl, h⟩

theorem entryHop_eq_some {S : Net V} {k : V} {n : Nodo V} (hn : lookupL S k = some n)
    {d : V} {e : Entry V} (he : lookupL n.tabella d = some e) :
    entryHop S k d = e.1 := by
  unfold entryHop
  rw [hn]
  dsimp only
  rw [he]

theorem fix_ineq {A : Adj V} {N : List V} {S : Net V}
    (hsym : AdjSym A)
    (hkeys : S.map Prod.fst = N) (hAg : AdjAgrees A S) (htk : TabKeys N S)
    (hzero : ∀ p ∈ S, ∀ v ∈ p.2.vicini.map Prod.fst,
      ∃ nr, lookupL S v = some nr ∧
        aggiorna_tabella nr p.1 (invia_vettore p.2) = .ok nr false)
    {z x : V} {c : Int} (hedge : edgeC A z x = some c) {y : V} (hy : y ∈ N) :
    Distanza.le (entryDist S z y) (Distanza.addC c (entryDist S x y)) := by
  have hxz : (edgeC A x z).isSome := hsym z x (by rw [hedge]; rfl)
  have hxA : x ∈ adjNames A := edgeC_isSome_mem hxz
  have hxS : x ∈ S.map Prod.fst := (hAg.names x).mpr hxA
  obtain ⟨nx, hnx⟩ := Option.isSome_iff_exists.mp (lookupL_isSome.mpr hxS)
  have hpx : (x, nx) ∈ S := lookupL_mem hnx
  have hzvic : z ∈ nx.vicini.map Prod.fst := by
    rw [← lookupL_isSome, ← hAg.edge hnx z]
    exact hxz
  obtain ⟨nr, hnr, hagg⟩ := hzero (x, nx) hpx z hzvic
  obtain ⟨_, c', hc', hineq⟩ := aggiorna_false hagg
  have hcc : c' = c := by
    have hzx := hAg.edge hnr x
    rw [hedge, hc'] at hzx
    exact (Option.some.inj hzx).symm
  have hytk : y ∈ nx.tabella.map Prod.fst := (htk (x, nx) hpx y).mpr hy
  obtain ⟨ey, hey⟩ := Option.isSome_iff_exists.mp (lookupL_isSome.mpr hytk)
  have hqmem : (y, ey.2) ∈ invia_vettore nx := by
    unfold invia_vettore
    exact List.mem_map_of_mem _ (lookupL_mem hey)
  obtain ⟨e, hez, hnlt⟩ := hineq (y, ey.2) hqmem
  have h1 := Distanza.le_of_not_lt hnlt
  rw [entryDist_eq_some hnr, tDist_eq hez, entryDist_eq_some hnx, tDist_eq hey, ← hcc]
  exact h1

theorem fixpoint_le {A : Adj V} {N : List V} {S : Net V}
    (hsym : AdjSym A)
    (hkeys : S.map Prod.fst = N) (hAg : AdjAgrees A S) (htk : TabKeys N S)
    (hinv : InvNet A S)
    (hzero : ∀ p ∈ S, ∀ v ∈ p.2.vicini.map Prod.fst,
      ∃ nr, lookupL S v = some nr ∧
        aggiorna_tabella nr p.1 (invia_vettore p.2) = .ok nr false) :
    ∀ {u v : V} {w : Int}, PathW A u v w →
      Distanza.le (entryDist S u v) (Distanza.fin w) := by
  intro u v w hp
  induction hp with
  | nil z hz =>
    have hzS : z ∈ S.map Prod.fst := (hAg.names z).mpr hz
    obtain ⟨nz, hnz⟩ := Option.isSome_iff_exists.mp (lookupL_isSome.mpr hzS)
    have hztk : z ∈ nz.tabella.map Prod.fst :=
      (htk (z, nz) (lookupL_mem hnz) z).mpr (by rw [← hkeys]; exact hzS)
    obtain ⟨e, he⟩ := Option.isSome_iff_exists.mp (lookupL_isSome.mpr hztk)
    have hgood := hinv (z, nz) (lookupL_mem hnz) (z, e) (lookupL_mem he)
    have he0 : e = (some z, Distanza.fin 0) := hgood.1 rfl
    rw [entryDist_eq_some hnz, tDist_eq he, he0]
    show (0 : Int) ≤ 0
    omega
  | cons hedge hpath ih =>
    rename_i z x y c d
    have hyN : y ∈ N := by
      rw [← hkeys]
      exact (hAg.names y).mpr (PathW_dst_mem hpath)
    have hfi := fix_ineq hsym hkeys hAg htk hzero hedge hyN
    refine Distanza.le_trans hfi ?_
    exact Distanza.addC_mono ih

theorem entry_realizes {A : Adj V} {S : Net V}
    (hAg : AdjAgrees A S) (hinv : InvNet A S)
    {u v : V} {n : Nodo V} (hn : lookupL S u = some n) {e : Entry V}
    (he : lookupL n.tabella v = some e) {w : Int} (hw : e.2 = Distanza.fin w) :
    PathW A u v w := by
  have hgood := hinv (u, n) (lookupL_mem hn) (v, e) (lookupL_mem he)
  by_cases hvu : v = u
  · have he0 : e = (some u, Distanza.fin 0) := hgood.1 hvu
    rw [he0] at hw
    have hw0 : w = 0 := by
      dsimp only at hw
      injection hw with hw
      omega
    rw [hvu, hw0]
    refine PathW.nil u ?_
    rw [← hAg.names u, ← lookupL_isSome, hn]
    rfl
  · obtain ⟨hop, cH, w2, he1, he2, hpath, hsum⟩ := hgood.2 hvu w hw
    rw [hsum]
    exact PathW.cons he2 hpath

theorem C1_general (net S S' : Net V)
    (hnd : (net.map Prod.fst).Nodup)
    (hn : ∀ p ∈ net, p.2.nome = p.1)
    (hclosed : AdjClosed (adjOf net))
    (hsym : AdjSym (adjOf net))
    (hnonneg : AdjNonneg (adjOf net))
    (hconn : StronglyConnected (adjOf net))
    (hreach : Reaches (initNet net) S)
    (hfix : round1 S = RoundRes.ok S' 0) :
    S' = S ∧
    ∀ u v, u ∈ net.map Prod.fst → v ∈ net.map Prod.fst →
      ∃ w, entryDist S' u v = Distanza.fin w ∧
        PathW (adjOf net) u v w ∧
        (∀ w2, PathW (adjOf net) u v w2 → w ≤ w2) ∧
        (v = u → entryHop S' u v = some u) ∧
        (v ≠ u → ∃ hop cH w2, entryHop S' u v = some hop ∧
          edgeC (adjOf net) u hop = some cH ∧
          entryDist S' hop v = Distanza.fin w2 ∧ w = cH + w2) := by
  obtain ⟨hkeys, hAg, htk, hinv⟩ := Reaches_C1 hnonneg hreach (initNet_keys net)
    (initNet_AdjAgrees net) (initNet_TabKeys net) (initNet_InvNet net hnd hn hclosed)
  have hndS : (S.map Prod.fst).Nodup := by rw [hkeys]; exact hnd
  have hfix' := hfix
  unfold round1 at hfix'
  obtain ⟨hSS, hzero⟩ := senders_zero hndS hfix'
  subst hSS
  refine ⟨rfl, ?_⟩
  intro u v hu hv
  have huA : u ∈ adjNames (adjOf net) := by rw [adjOf_names]; exact hu
  have hvA : v ∈ adjNames (adjOf net) := by rw [adjOf_names]; exact hv
  obtain ⟨w0, hp0⟩ := hconn u v huA hvA
  have hle0 := fixpoint_le hsym hkeys hAg htk hinv hzero hp0
  obtain ⟨w, hwfin, hwle⟩ := Distanza.le_fin_inv hle0
  have huS : u ∈ S'.map Prod.fst := by rw [hkeys]; exact hu
  obtain ⟨nu, hnu⟩ := Option.isSome_iff_exists.mp (lookupL_isSome.mpr huS)
  have hdist : tDist nu.tabella v = Distanza.fin w := by
    rw [← entryDist_eq_some hnu]
    exact hwfin
  obtain ⟨e, he, he2⟩ := tDist_fin_inv hdist
  have hreal := entry_realizes hAg hinv hnu he he2
  refine ⟨w, hwfin, hreal, ?_, ?_, ?_⟩
  · intro w2 hp2
    have hle2 := fixpoint_le hsym hkeys hAg htk hinv hzero hp2
    rw [hwfin] at hle2
    exact hle2
  · intro hvu
    have hgood := hinv (u, nu) (lookupL_mem hnu) (v, e) (lookupL_mem he)
    have he0 : e = (some u, Distanza.fin 0) := hgood.1 hvu
    rw [entryHop_eq_some hnu he, he0]
  · intro hvu
    have hgood := hinv (u, nu) (lookupL_mem hnu) (v, e) (lookupL_mem he)
    obtain ⟨hop, cH, w2, he1, hedge, hpath, hsum⟩ := hgood.2 hvu w he2
    have hle2 := fixpoint_le hsym hkeys hAg htk hinv hzero hpath
    obtain ⟨w3, hw3fin, hw3le⟩ := Distanza.le_fin_inv hle2
    have hfi := fix_ineq hsym hkeys hAg htk hzero hedge hv
    rw [hwfin, hw3fin] at hfi
    have hwle2 : w ≤ cH + w3 := hfi
    have hfinal : w = cH + w3 := by omega
    refine ⟨hop, cH, w3, ?_, hedge, hw3fin, hfinal⟩
    rw [entryHop_eq_some hnu he]
    exact he1

theorem strongConn4 : StronglyConnected (adjOf nodi4) := by
  have eAB : edgeC (adjOf nodi4) Ident.A Ident.B = some 1 := by decide
  have eAC : edgeC (adjOf nodi4) Ident.A Ident.C = some 4 := by decide
  have eBA : edgeC (adjOf nodi4) Ident.B Ident.A = some 1 := by decide
  have eBC : edgeC (adjOf nodi4) Ident.B Ident.C = some 2 := by decide
  have eBD : edgeC (adjOf nodi4) Ident.B Ident.D = some 7 := by decide
  have eCA : edgeC (adjOf nodi4) Ident.C Ident.A = some 4 := by decide
  have eCB : edgeC (adjOf nodi4) Ident.C Ident.B = some 2 := by decide
  have eCD : edgeC (adjOf nodi4) Ident.C Ident.D = some 1 := by decide
  have eDB : edgeC (adjOf nodi4) Ident.D Ident.B = some 7 := by decide
  have eDC : edgeC (adjOf nodi4) Ident.D Ident.C = some 1 := by decide
  have mA : Ident.A ∈ adjNames (adjOf nodi4) := by decide
  have mB : Ident.B ∈ adjNames (adjOf nodi4) := by decide
  have mC : Ident.C ∈ adjNames (adjOf nodi4) := by decide
  have mD : Ident.D ∈ adjNames (adjOf nodi4) := by decide
  intro u v hu hv
  cases u with
  | E => exact absurd hu (by decide)
  | Z => exact absurd hu (by decide)
  | A =>
    cases v with
    | E => exact absurd hv (by decide)
    | Z => exact absurd hv (by decide)
    | A => exact ⟨0, PathW.nil Ident.A mA⟩
    | B => exact ⟨_, PathW.cons eAB (PathW.nil Ident.B mB)⟩
    | C => exact ⟨_, PathW.cons eAC (PathW.nil Ident.C mC)⟩
    | D => exact ⟨_, PathW.cons eAB (PathW.cons eBD (PathW.nil Ident.D mD))⟩
  | B =>
    cases v with
    | E => exact absurd hv (by decide)
    | Z => exact absurd hv (by decide)
    | A => exact ⟨_, PathW.cons eBA (PathW.nil Ident.A mA)⟩
    | B => exact ⟨0, PathW.nil Ident.B mB⟩
    | C => exact ⟨_, PathW.cons eBC (PathW.nil Ident.C mC)⟩
    | D => exact ⟨_, PathW.cons eBD (PathW.nil Ident.D mD)⟩
  | C =>
    cases v with
    | E => exact absurd hv (by decide)
    | Z => exact absurd hv (by decide)
    | A => exact ⟨_, PathW.cons eCA (PathW.nil Ident.A mA)⟩
    | B => exact ⟨_, PathW.cons eCB (PathW.nil Ident.B mB)⟩
    | C => exact ⟨0, PathW.nil Ident.C mC⟩
    | D => exact ⟨_, PathW.cons eCD (PathW.nil Ident.D mD)⟩
  | D =>
    cases v with
    | E => exact absurd hv (by decide)
    | Z => exact absurd hv (by decide)
    | A => exact ⟨_, PathW.cons eDB (PathW.cons eBA (PathW.nil Ident.A mA))⟩
    | B => exact ⟨_, PathW.cons eDB (PathW.nil Ident.B mB)⟩
    | C => exact ⟨_, PathW.cons eDC (PathW.nil Ident.C mC)⟩
    | D => exact ⟨0, PathW.nil Ident.D mD⟩

/-- C1: On a well-formed, strongly connected topology with non-negative symmetric
link costs, any fixed point of the synchronous round step reached from the
initialized network stores, for every ordered pair of nodes, the exact shortest-path
distance (realized by a walk, and a lower bound for every walk), with the self
entry pointing to the node itself and every other entry pointing through a direct
neighbor whose recorded distance completes the path exactly. Concretely, on the
A-B-C-D topology of main, simula converges in 3 rounds (counts [6, 2, 0]) to the
expected table: A to A is 0 via A, A to B is 1, A to C is 3 via B, A to D is 4 via
B, B to D is 3 via C, C to D is 1 via D. -/
theorem C1_convergence_correct :
    (∀ (V : Type) [DecidableEq V] (net S S' : Net V),
      (net.map Prod.fst).Nodup →
      (∀ p ∈ net, p.2.nome = p.1) →
      AdjClosed (adjOf net) →
      AdjSym (adjOf net) →
      AdjNonneg (adjOf net) →
      StronglyConnected (adjOf net) →
      Reaches (initNet net) S →
      round1 S = RoundRes.ok S' 0 →
      S' = S ∧
      ∀ u v, u ∈ net.map Prod.fst → v ∈ net.map Prod.fst →
        ∃ w, entryDist S' u v = Distanza.fin w ∧
          PathW (adjOf net) u v w ∧
          (∀ w2, PathW (adjOf net) u v w2 → w ≤ w2) ∧
          (v = u → entryHop S' u v = some u) ∧
          (v ≠ u → ∃ hop cH w2, entryHop S' u v = some hop ∧
            edgeC (adjOf net) u hop = some cH ∧
            entryDist S' hop v = Distanza.fin w2 ∧ w = cH + w2)) ∧
    (simula nodi4 10 = SimRes.ok net4r2L [6, 2, 0] ∧
     entryDist net4r2L Ident.A Ident.A = Distanza.fin 0 ∧
     entryHop net4r2L Ident.A Ident.A = some Ident.A ∧
     entryDist net4r2L Ident.A Ident.B = Distanza.fin 1 ∧
     entryDist net4r2L Ident.A Ident.C = Distanza.fin 3 ∧
     entryHop net4r2L Ident.A Ident.C = some Ident.B ∧
     entryDist net4r2L Ident.A Ident.D = Distanza.fin 4 ∧
     entryHop net4r2L Ident.A Ident.D = some Ident.B ∧
     entryDist net4r2L Ident.B Ident.D = Distanza.fin 3 ∧
     entryHop net4r2L Ident.B Ident.D = some Ident.C ∧
     entryDist net4r2L Ident.C Ident.D = Distanza.fin 1 ∧
     entryHop net4r2L Ident.C Ident.D = some Ident.D) :=
  ⟨fun V _ net S S' h1 h2 h3 h4 h5 h6 h7 h8 =>
    C1_general net S S' h1 h2 h3 h4 h5 h6 h7 h8,
   sim4_10, by decide, by decide, by decide, by decide, by decide, by decide,
   by decide, by decide, by decide, by decide, by decide⟩

/-- Witness for C1: the general fixed-point statement applied to the concrete
four-node topology of main, at its converged state, with every hypothesis
discharged concretely. -/
theorem C1_convergence_witness :
    net4r2L = net4r2L ∧
    ∀ u v, u ∈ nodi4.map Prod.fst → v ∈ nodi4.map Prod.fst →
      ∃ w, entryDist net4r2L u v = Distanza.fin w ∧
        PathW (adjOf nodi4) u v w ∧
        (∀ w2, PathW (adjOf nodi4) u v w2 → w ≤ w2) ∧
        (v = u → entryHop net4r2L u v = some u) ∧
        (v ≠ u → ∃ hop cH w2, entryHop net4r2L u v = some hop ∧
          edgeC (adjOf nodi4) u hop = some cH ∧
          entryDist net4r2L hop v = Distanza.fin w2 ∧ w = cH + w2) :=
  C1_convergence_correct.1 Ident nodi4 net4r2L net4r2L
    (by decide)
    (by decide)
    (by unfold AdjClosed; decide)
    (by unfold AdjSym; decide)
    (adjNonneg_of_costs (by decide))
    strongConn4
    reaches4
    round4_3L
